import Mathlib

/-!
Shallow embedding of the template composition engine of `bin/scaffold.js`
(marker-based code injection, JSON manifest script/dependency merging,
and marker cleanup), together with theorems checking the specification's
claims against it.

File contents are modelled as `List Char` (named `Str`); the filesystem is
an association list from paths to contents, with directory creation left
implicit.  JavaScript's `JSON.parse` / `JSON.stringify` pair is modelled by
an executable tokenizer, parser and pretty-printer over a `Json` inductive
(integers only for numbers, no `\u` escapes: the manifests manipulated by
the scaffold contain only strings, objects and arrays).
-/

/-- File contents and path fragments are lists of characters. -/
abbrev Str := List Char

/-- Whitespace as matched by the scaffold's `\s` regex class (restricted to
the four characters that actually occur in template files). -/
def isWsChar (c : Char) : Bool :=
  c = ' ' || c = '\t' || c = '\n' || c = '\r'

/-- Locate the first occurrence of `pat` in a string, returning the text
before and after it.  This is the search underlying JavaScript's
`String.prototype.includes` and single-occurrence `String.prototype.replace`
in `injectCode`. -/
def splitFirst (pat : Str) : Str → Option (Str × Str)
  | [] => if pat.isEmpty then some ([], []) else none
  | c :: rest =>
    if pat.isPrefixOf (c :: rest) then some ([], (c :: rest).drop pat.length)
    else
      match splitFirst pat rest with
      | some (pre, post) => some (c :: pre, post)
      | none => none

/-- Substring test (`content.includes(marker)`). -/
def containsStr (s pat : Str) : Bool :=
  (splitFirst pat s).isSome

/-- First-occurrence replacement (`content.replace(marker, repl)` with a
string pattern).  Replacement-pattern characters such as `$&` are not
interpreted. -/
def replaceFirst (s pat repl : Str) : Str :=
  match splitFirst pat s with
  | some (pre, post) => pre ++ repl ++ post
  | none => s

/-- Suffix test (`path.endsWith(suffix)`). -/
def endsWithStr (s suffix : Str) : Bool :=
  suffix.isSuffixOf s

/-- Split a string at every occurrence of `sep` (used with `'\n'` to view a
file as its list of lines, mirroring the `m`-flag anchors of the cleanup
regexes). -/
def splitOnChar (sep : Char) : Str → List Str
  | [] => [[]]
  | c :: cs =>
    if c = sep then [] :: splitOnChar sep cs
    else
      match splitOnChar sep cs with
      | [] => [[c]]
      | h :: t => (c :: h) :: t

/-- Rejoin lines with the separator character. -/
def joinWithChar (sep : Char) : List Str → Str
  | [] => []
  | [l] => l
  | l :: l₂ :: ls => l ++ sep :: joinWithChar sep (l₂ :: ls)

/-- Strip leading and trailing whitespace of a line. -/
def trimWs (l : Str) : Str :=
  ((l.dropWhile isWsChar).reverse.dropWhile isWsChar).reverse

/-- A line matches the marker-removal regex `^\s*MARKER\s*$` exactly when it
is the marker surrounded by optional whitespace. -/
def isMarkerLine (marker l : Str) : Bool :=
  trimWs l = marker

/-- Whether some line of `content` is a standalone `marker` line
(`regex.test(content)` for the anchored marker regex). -/
def hasMarkerLine (marker content : Str) : Bool :=
  (splitOnChar '\n' content).any (isMarkerLine marker)

/-- Replace every standalone `marker` line by an empty line
(`content.replace(markerRegex, "")` with the `gm`-flagged anchored regex;
the coalescing of a blank line immediately preceding a marker line is not
modelled). -/
def stripMarkerLines (marker content : Str) : Str :=
  joinWithChar '\n'
    ((splitOnChar '\n' content).map (fun l => if isMarkerLine marker l then [] else l))

/-- Marker grammar from the specification: a line-comment prefix (`//` or
`#`), optional whitespace, the literal `INJECT:` and a nonempty
uppercase-or-underscore identifier. -/
def isInjectIdentChar (c : Char) : Bool :=
  ('A' ≤ c && c ≤ 'Z') || c = '_'

/-- Body of a marker after its comment prefix: `\s*INJECT:[A-Z_]+`. -/
def markerBodyOk (s : Str) : Bool :=
  match splitFirst "INJECT:".data (s.dropWhile isWsChar) with
  | some (pre, post) => pre = [] && post ≠ [] && post.all isInjectIdentChar
  | none => false

/-- Whether a marker string conforms to the marker grammar
`(//|#)\s*INJECT:[A-Z_]+`. -/
def markerGrammarOk (m : Str) : Bool :=
  match m with
  | [] => false
  | c :: rest =>
    if c = '#' then markerBodyOk rest
    else if c = '/' then
      match rest with
      | [] => false
      | c₂ :: rest₂ => if c₂ = '/' then markerBodyOk rest₂ else false
    else false

example : markerGrammarOk "// INJECT:WORKERS_SCRIPTS".data = true := by decide
example : markerGrammarOk "# INJECT:ENV_VARS".data = true := by decide
example : markerGrammarOk "// TODO".data = false := by decide
example : splitFirst "M".data "aMbMc".data = some ("a".data, "bMc".data) := by decide
example : stripMarkerLines "// INJECT:A".data "x\n  // INJECT:A\ny".data = "x\n\ny".data := by
  decide

/-! ### JSON values, tokenizer, parser, printer (model of `JSON.parse` /
`JSON.stringify(·, null, 2)`) -/

/-- JSON values.  Numbers are modelled as integers: the package manifests
handled by the scaffold contain no fractional numbers. -/
inductive Json where
  | null : Json
  | bool (b : Bool) : Json
  | num (n : Int) : Json
  | str (s : Str) : Json
  | arr (elems : List Json) : Json
  | obj (fields : List (Str × Json)) : Json
deriving Repr

/-- JSON tokens. -/
inductive JTok where
  | lbrace | rbrace | lbrack | rbrack | comma | colon
  | jstr (s : Str) | jnum (n : Int) | jtrue | jfalse | jnull
deriving Repr, DecidableEq

/-- Decode a single-character escape sequence inside a JSON string
(`\u` escapes are not modelled). -/
def unescapeChar (c : Char) : Option Char :=
  if c = '"' then some '"'
  else if c = '\\' then some '\\'
  else if c = '/' then some '/'
  else if c = 'n' then some '\n'
  else if c = 't' then some '\t'
  else if c = 'r' then some '\r'
  else if c = 'b' then some (Char.ofNat 8)
  else if c = 'f' then some (Char.ofNat 12)
  else none

/-- Scan a JSON string literal after its opening quote, returning the decoded
contents and the remaining input.  Raw control characters (in particular
newlines) inside a string are rejected, as by `JSON.parse`. -/
def scanString : Str → Option (Str × Str)
  | [] => none
  | c :: cs =>
    if c = '"' then some ([], cs)
    else if c = '\\' then
      match cs with
      | [] => none
      | e :: cs₂ =>
        match unescapeChar e, scanString cs₂ with
        | some ch, some (s, r) => some (ch :: s, r)
        | _, _ => none
    else if c.toNat < 32 then none
    else
      match scanString cs with
      | some (s, r) => some (c :: s, r)
      | none => none

/-- Digit string to numeric value. -/
def digitsToNat (ds : Str) : Nat :=
  ds.foldl (fun acc c => acc * 10 + (c.toNat - '0'.toNat)) 0

/-- Scan an integer JSON number (optional minus sign and digits). -/
def scanNumber (cs : Str) : Option (Int × Str) :=
  match cs with
  | [] => none
  | c :: rest =>
    if c = '-' then
      if (rest.takeWhile Char.isDigit).isEmpty then none
      else some (-(digitsToNat (rest.takeWhile Char.isDigit) : Int),
        rest.dropWhile Char.isDigit)
    else
      if ((c :: rest).takeWhile Char.isDigit).isEmpty then none
      else some ((digitsToNat ((c :: rest).takeWhile Char.isDigit) : Int),
        (c :: rest).dropWhile Char.isDigit)

/-- Fueled JSON tokenizer.  It fails on any character that cannot start a
token: this is where `JSON.parse` rejects a raw comment line left inside a
manifest. -/
def tokenizeAux : Nat → Str → Option (List JTok)
  | 0, _ => none
  | _ + 1, [] => some []
  | fuel + 1, c :: cs =>
    if isWsChar c then tokenizeAux fuel cs
    else if c = '{' then (tokenizeAux fuel cs).map (JTok.lbrace :: ·)
    else if c = '}' then (tokenizeAux fuel cs).map (JTok.rbrace :: ·)
    else if c = '[' then (tokenizeAux fuel cs).map (JTok.lbrack :: ·)
    else if c = ']' then (tokenizeAux fuel cs).map (JTok.rbrack :: ·)
    else if c = ',' then (tokenizeAux fuel cs).map (JTok.comma :: ·)
    else if c = ':' then (tokenizeAux fuel cs).map (JTok.colon :: ·)
    else if c = '"' then
      match scanString cs with
      | some (s, r) => (tokenizeAux fuel r).map (JTok.jstr s :: ·)
      | none => none
    else if c = '-' || c.isDigit then
      match scanNumber (c :: cs) with
      | some (n, r) => (tokenizeAux fuel r).map (JTok.jnum n :: ·)
      | none => none
    else if c = 't' then
      if "rue".data.isPrefixOf cs then (tokenizeAux fuel (cs.drop 3)).map (JTok.jtrue :: ·)
      else none
    else if c = 'f' then
      if "alse".data.isPrefixOf cs then (tokenizeAux fuel (cs.drop 4)).map (JTok.jfalse :: ·)
      else none
    else if c = 'n' then
      if "ull".data.isPrefixOf cs then (tokenizeAux fuel (cs.drop 3)).map (JTok.jnull :: ·)
      else none
    else none

/-- Tokenize a whole input. -/
def tokenize (cs : Str) : Option (List JTok) :=
  tokenizeAux (cs.length + 1) cs

/-- Overwrite the value of a key if present (keeping its position), else
append the pair: JavaScript object-property assignment / spread collision
semantics. -/
def setKey (fields : List (Str × Json)) (k : Str) (v : Json) : List (Str × Json) :=
  match fields with
  | [] => [(k, v)]
  | (k', v') :: rest =>
    if k' = k then (k', v) :: rest else (k', v') :: setKey rest k v

/-- JavaScript object spread `{...a, ...b}`: entries of `b` overwrite or
extend those of `a` in order. -/
def objAssign (a b : List (Str × Json)) : List (Str × Json) :=
  b.foldl (fun acc kv => setKey acc kv.1 kv.2) a

/-- Duplicate keys inside one parsed JSON object collapse to the last value
at the first key's position, as in JavaScript. -/
def dedupKeys (fields : List (Str × Json)) : List (Str × Json) :=
  objAssign [] fields

mutual

/-- Fueled parser for one JSON value from a token stream. -/
def pVal : Nat → List JTok → Option (Json × List JTok)
  | 0, _ => none
  | _ + 1, [] => none
  | fuel + 1, t :: ts =>
    match t with
    | .jnull => some (.null, ts)
    | .jtrue => some (.bool true, ts)
    | .jfalse => some (.bool false, ts)
    | .jstr s => some (.str s, ts)
    | .jnum n => some (.num n, ts)
    | .lbrace =>
      match ts with
      | .rbrace :: ts₂ => some (.obj [], ts₂)
      | _ =>
        match pFields fuel ts with
        | some (fields, .rbrace :: ts₂) => some (.obj (dedupKeys fields), ts₂)
        | _ => none
    | .lbrack =>
      match ts with
      | .rbrack :: ts₂ => some (.arr [], ts₂)
      | _ =>
        match pElems fuel ts with
        | some (elems, .rbrack :: ts₂) => some (.arr elems, ts₂)
        | _ => none
    | _ => none

/-- Fueled parser for a nonempty `"key": value` list. -/
def pFields : Nat → List JTok → Option (List (Str × Json) × List JTok)
  | 0, _ => none
  | fuel + 1, ts =>
    match ts with
    | .jstr k :: .colon :: ts₂ =>
      match pVal fuel ts₂ with
      | some (v, .comma :: ts₃) =>
        match pFields fuel ts₃ with
        | some (fields, rest) => some ((k, v) :: fields, rest)
        | none => none
      | some (v, rest) => some ([(k, v)], rest)
      | none => none
    | _ => none

/-- Fueled parser for a nonempty array-element list. -/
def pElems : Nat → List JTok → Option (List Json × List JTok)
  | 0, _ => none
  | fuel + 1, ts =>
    match pVal fuel ts with
    | some (v, .comma :: ts₂) =>
      match pElems fuel ts₂ with
      | some (elems, rest) => some (v :: elems, rest)
      | none => none
    | some (v, rest) => some ([v], rest)
    | none => none

end

/-- Model of `JSON.parse`: tokenize, parse one value, require the input to
be exhausted. -/
def parseJson (cs : Str) : Option Json :=
  match tokenize cs with
  | none => none
  | some ts =>
    match pVal (ts.length + 1) ts with
    | some (v, []) => some v
    | _ => none

/-- Escape a string for JSON output. -/
def jEscape (s : Str) : Str :=
  s.flatMap (fun c =>
    if c = '"' then ['\\', '"']
    else if c = '\\' then ['\\', '\\']
    else if c = '\n' then ['\\', 'n']
    else if c = '\t' then ['\\', 't']
    else if c = '\r' then ['\\', 'r']
    else [c])

/-- Indentation of `2 * d` spaces. -/
def indentOf (d : Nat) : Str :=
  List.replicate (2 * d) ' '

/-- Decimal representation of an integer. -/
def intToStr (n : Int) : Str :=
  (toString n).data

mutual

/-- Model of `JSON.stringify(v, null, 2)` at nesting depth `d`.  The fuel
argument keeps the mutual recursion structural (hence kernel-reducible);
`stringify` supplies enough fuel for any value. -/
def stringifyVal : Nat → Nat → Json → Str
  | 0, _, _ => []
  | _ + 1, _, .null => "null".data
  | _ + 1, _, .bool true => "true".data
  | _ + 1, _, .bool false => "false".data
  | _ + 1, _, .num n => intToStr n
  | _ + 1, _, .str s => '"' :: jEscape s ++ ['"']
  | _ + 1, _, .arr [] => "[]".data
  | fuel + 1, d, .arr (e :: es) =>
    '[' :: '\n' :: indentOf (d + 1) ++ stringifyElems fuel d e es ++
      '\n' :: indentOf d ++ [']']
  | _ + 1, _, .obj [] => "\x7b\x7d".data
  | fuel + 1, d, .obj (f :: fs) =>
    '{' :: '\n' :: indentOf (d + 1) ++ stringifyFields fuel d f fs ++
      '\n' :: indentOf d ++ ['}']

/-- Comma-and-newline separated array elements. -/
def stringifyElems : Nat → Nat → Json → List Json → Str
  | 0, _, _, _ => []
  | fuel + 1, d, e, [] => stringifyVal fuel (d + 1) e
  | fuel + 1, d, e, e₂ :: es =>
    stringifyVal fuel (d + 1) e ++ ',' :: '\n' :: indentOf (d + 1) ++
      stringifyElems fuel d e₂ es

/-- Comma-and-newline separated object fields. -/
def stringifyFields : Nat → Nat → Str × Json → List (Str × Json) → Str
  | 0, _, _, _ => []
  | fuel + 1, d, f, [] => '"' :: jEscape f.1 ++ '"' :: ':' :: ' ' :: stringifyVal fuel (d + 1) f.2
  | fuel + 1, d, f, f₂ :: fs =>
    '"' :: jEscape f.1 ++ '"' :: ':' :: ' ' :: stringifyVal fuel (d + 1) f.2 ++
      ',' :: '\n' :: indentOf (d + 1) ++ stringifyFields fuel d f₂ fs

end

mutual

/-- Size of a JSON value, used to provide fuel for the printer. -/
def jsonSize : Json → Nat
  | .null => 1
  | .bool _ => 1
  | .num _ => 1
  | .str _ => 1
  | .arr es => 1 + jsonSizeList es
  | .obj fs => 1 + jsonSizeFields fs

/-- Combined size of a list of JSON values. -/
def jsonSizeList : List Json → Nat
  | [] => 0
  | e :: es => 1 + jsonSize e + jsonSizeList es

/-- Combined size of a list of JSON object fields. -/
def jsonSizeFields : List (Str × Json) → Nat
  | [] => 0
  | f :: fs => 1 + jsonSize f.2 + jsonSizeFields fs

end

/-- Top-level pretty printer, with fuel ample for the value's size. -/
def stringify (v : Json) : Str :=
  stringifyVal (2 * jsonSize v + 2) 0 v

example : parseJson "\x7b\"a\": 1, \"b\": [true, null]\x7d".data =
    some (.obj [("a".data, .num 1), ("b".data, .arr [.bool true, .null])]) := by
  rfl

example : parseJson "\x7boops\x7d".data = none := by rfl

example :
    stringify (.obj [("scripts".data, .obj [("dev".data, .str "x".data)])]) =
      "\x7b\n  \"scripts\": \x7b\n    \"dev\": \"x\"\n  \x7d\n\x7d".data := by
  rfl

/-! ### Filesystem model and `injectCode` -/

/-- A filesystem is an association list from paths to file contents;
directory creation (`fs.mkdir recursive`) is implicit in this model. -/
abbrev FS := List (Str × Str)

/-- Content of the file at a path, `none` when the file does not exist
(`fs.readFile` rejecting with `ENOENT`). -/
def lookupFS : FS → Str → Option Str
  | [], _ => none
  | (p, c) :: rest, q => if p = q then some c else lookupFS rest q

/-- Write a file (`fs.writeFile`): overwrite in place or create. -/
def setFS : FS → Str → Str → FS
  | [], p, c => [(p, c)]
  | (p', c') :: rest, p, c =>
    if p' = p then (p', c) :: rest else (p', c') :: setFS rest p c

/-- `path.join(targetDir, relative)`, simplified to separator insertion. -/
def pathJoin (a b : Str) : Str :=
  a ++ '/' :: b

/-- Errors thrown out of `injectCode` (all non-`ENOENT` errors are
rethrown by its catch block and abort the run). -/
inductive InjectError where
  /-- `JSON.parse` failed on the marker-stripped manifest text. -/
  | manifestUnparsable (content : Str)
  /-- The structured error thrown when the injection code is not valid as
  the interior of a JSON object literal. -/
  | scriptFragmentInvalid (code : Str)
  /-- Strict-mode `TypeError` from assigning `.scripts` on a manifest that
  parsed to a non-object. -/
  | manifestNotObject (content : Str)
deriving Repr, DecidableEq

/-- The marker token that selects the scripts-merging manifest path. -/
def wsToken : Str := "WORKERS_SCRIPTS".data

/-- Manifest file name suffix. -/
def pkgSuffix : Str := "package.json".data

/-- First value for a key among parsed object fields. -/
def lookupField : List (Str × Json) → Str → Option Json
  | [], _ => none
  | (k, v) :: rest, q => if k = q then some v else lookupField rest q

/-- The manifest's current `scripts` object (`packageJson.scripts`, spread
as `{}` when absent or not an object). -/
def scriptsFieldsOf (pkgFields : List (Str × Json)) : List (Str × Json) :=
  match lookupField pkgFields "scripts".data with
  | some (Json.obj sf) => sf
  | _ => []

/-- `packageJson.scripts = {...packageJson.scripts, ...scriptsToAdd}`. -/
def mergeScripts (pkgFields fragFields : List (Str × Json)) : List (Str × Json) :=
  setKey pkgFields "scripts".data (Json.obj (objAssign (scriptsFieldsOf pkgFields) fragFields))

/-- Generic text path of `injectCode` (lines 112-119 of `bin/scaffold.js`):
replace the first occurrence of the marker by the code, a newline, two
spaces and the marker itself; report `false` without writing when the
marker is absent. -/
def injectText (fs : FS) (filePath marker code : Str) (content : Str) :
    Except InjectError (FS × Bool) :=
  match splitFirst marker content with
  | some (pre, post) =>
    .ok (setFS fs filePath (pre ++ code ++ '\n' :: ' ' :: ' ' :: (marker ++ post)), true)
  | none => .ok (fs, false)

/-- Model of `injectCode(filePath, marker, code)`.  A missing file is
created as `marker\ncode\n`; a `package.json` target with a
`WORKERS_SCRIPTS` marker goes through marker stripping, JSON parsing and a
shallow merge into the `scripts` section; every other file takes the
generic text path. -/
def injectCode (fs : FS) (filePath marker code : Str) :
    Except InjectError (FS × Bool) :=
  match lookupFS fs filePath with
  | none =>
    .ok (setFS fs filePath (marker ++ '\n' :: (code ++ ['\n'])), true)
  | some content =>
    if endsWithStr filePath pkgSuffix && containsStr marker wsToken then
      let stripped := stripMarkerLines marker content
      match parseJson stripped with
      | none => .error (.manifestUnparsable stripped)
      | some pkg =>
        match parseJson ('{' :: (code ++ ['}'])) with
        | none => .error (.scriptFragmentInvalid code)
        | some (Json.obj fragFields) =>
          match pkg with
          | Json.obj pkgFields =>
            .ok (setFS fs filePath
              (stringify (Json.obj (mergeScripts pkgFields fragFields)) ++ ['\n']), true)
          | _ => .error (.manifestNotObject stripped)
        | some _ =>
          -- unreachable: a successful parse of `{...}` is an object; the
          -- source would fall through to the text path here
          injectText fs filePath marker code content
    else injectText fs filePath marker code content

/-! ### Dependency collection and manifest merge -/

/-- Dependency maps (`name -> version`), ordered as JavaScript objects. -/
abbrev Deps := List (Str × Str)

/-- First value for a dependency name. -/
def lookupDep : Deps → Str → Option Str
  | [], _ => none
  | (k, v) :: rest, q => if k = q then some v else lookupDep rest q

/-- Property assignment on a dependency object: overwrite in place or
append. -/
def setDep (d : Deps) (k v : Str) : Deps :=
  match d with
  | [] => [(k, v)]
  | (k', v') :: rest =>
    if k' = k then (k', v) :: rest else (k', v') :: setDep rest k v

/-- `Object.assign(target, source)` / spread on dependency maps. -/
def depAssign (a b : Deps) : Deps :=
  b.foldl (fun acc kv => setDep acc kv.1 kv.2) a

/-- A selectable feature, as loaded from the feature registry. -/
structure Feature where
  dependencies : Deps
  devDependencies : Deps
  injections : List (Str × Str × Str)
deriving Repr

/-- Accumulation of one dependency section over the selection order
(`Object.assign(accumulator, feature.section)` per feature). -/
def collectBy (g : Feature → Deps) (feats : List Feature) : Deps :=
  feats.foldl (fun acc f => depAssign acc (g f)) []

/-- Accumulation of `allDependencies` over the selection order. -/
def collectDeps (feats : List Feature) : Deps :=
  collectBy Feature.dependencies feats

/-- Accumulation of `allDevDependencies` over the selection order. -/
def collectDevDeps (feats : List Feature) : Deps :=
  collectBy Feature.devDependencies feats

/-- Dependency-section rewrite of `mergePackageJson`: spread the collected
maps over the manifest's sections, the dev section only when the collected
dev map is nonempty. -/
def mergePackageJson (pkgDeps pkgDevDeps dependencies devDependencies : Deps) :
    Deps × Deps :=
  (depAssign pkgDeps dependencies,
    if devDependencies.isEmpty then pkgDevDeps
    else depAssign pkgDevDeps devDependencies)

/-! ### Marker cleanup -/

/-- One step of the cleanup loop over a single marker: test the anchored
regex, and on a hit strip the marker lines and record the modification. -/
def cleanMarkerStep (st : Str × Bool) (m : Str) : Str × Bool :=
  if hasMarkerLine m st.1 then (stripMarkerLines m st.1, true) else st

/-- Strip every applied marker from one file's text, tracking whether
anything changed. -/
def cleanTextContent (applied : List Str) (c : Str) : Str × Bool :=
  applied.foldl cleanMarkerStep (c, false)

/-- Whether a path is picked up by the cleanup glob
`**/*.{ts,js,json,env*}` with `node_modules` ignored (dot-initial
components are not matched by glob wildcards). -/
def cleanupGlobMatch (p : Str) : Bool :=
  let comps := splitOnChar '/' p
  let base := comps.getLastD []
  comps.all (fun comp => comp.head? ≠ some '.') &&
    !comps.contains "node_modules".data &&
    (endsWithStr base ".ts".data || endsWithStr base ".js".data ||
      endsWithStr base ".json".data || containsStr base ".env".data)

/-- Cleanup transformation of a single file (`cleanupMarkers` loop body):
`.env.example` files are skipped; `package.json` files are re-parsed and
pretty-printed after stripping when anything changed, falling back to the
textually stripped content when re-parsing fails. -/
def cleanupFile (applied : List Str) (p c : Str) : Str :=
  if cleanupGlobMatch p && !endsWithStr p ".env.example".data then
    let st := cleanTextContent applied c
    if endsWithStr p pkgSuffix then
      if st.2 then
        match parseJson st.1 with
        | some j => stringify j ++ ['\n']
        | none => st.1
      else c
    else if st.2 then st.1 else c
  else c

/-- Model of `cleanupMarkers(targetDir, injectedMarkers)` over the whole
tree. -/
def cleanupMarkers (fs : FS) (applied : List Str) : FS :=
  fs.map (fun e => (e.1, cleanupFile applied e.1 e.2))

/-! ### Composition driver fragments -/

/-- Insertion into the `injectedMarkers` set. -/
def addMarker (applied : List Str) (m : Str) : List Str :=
  if applied.contains m then applied else applied ++ [m]

/-- The scaffold's injection loop: apply each declared injection in order,
recording the markers of successful applications; any injection error
aborts the run. -/
def applyInjections (targetDir : Str) :
    FS → List Str → List (Str × Str × Str) → Except InjectError (FS × List Str)
  | fs, applied, [] => .ok (fs, applied)
  | fs, applied, (file, marker, code) :: rest =>
    match injectCode fs (pathJoin targetDir file) marker code with
    | .error e => .error e
    | .ok (fs₂, injected) =>
      applyInjections targetDir fs₂
        (if injected then addMarker applied marker else applied) rest

/-- State of the requested target directory before scaffolding. -/
inductive TargetState where
  | absent
  | file
  | dir (entries : List Str)
deriving Repr, DecidableEq

/-- Fatal configuration errors of the driver. -/
inductive ScaffoldError where
  | targetNotEmpty
deriving Repr, DecidableEq

/-- Project-name validation of the initial prompt: nonempty after
trimming, the explicit `.` sentinel, or an npm package name
`(@scope/)?name`. -/
def isNpmNameFirst (c : Char) : Bool :=
  c.isLower || c.isDigit || c = '-' || c = '~'

/-- Characters allowed after the first in an npm name segment. -/
def isNpmNameRest (c : Char) : Bool :=
  isNpmNameFirst c || c = '.' || c = '_'

/-- One `[a-z0-9-~][a-z0-9-._~]*` segment. -/
def plainNameOk : Str → Bool
  | [] => false
  | c :: cs => isNpmNameFirst c && cs.all isNpmNameRest

/-- The npm package-name regex of the prompt's validator. -/
def npmNameOk (s : Str) : Bool :=
  match s with
  | '@' :: rest =>
    match splitFirst ['/'] rest with
    | some (scope, name) => plainNameOk scope && plainNameOk name
    | none => false
  | _ => plainNameOk s

/-- `validate` callback of the project-name prompt. -/
def validateProjectName (input : Str) : Bool :=
  if (trimWs input).length = 0 then false
  else if input = ".".data then true
  else npmNameOk input

/-- Copy the base template under the target directory (flattened model of
`copyDirectory`). -/
def copyBase (template fs : FS) (targetDir : Str) : FS :=
  template.foldl (fun acc e => setFS acc (pathJoin targetDir e.1) e.2) fs

/-- Driver prefix for a resolved target directory: refuse a non-empty
existing directory before anything is written, otherwise copy the base
template (an absent directory is created first). -/
def scaffoldPrepareTarget (template fs : FS) (targetDir : Str)
    (target : TargetState) : Except ScaffoldError FS :=
  match target with
  | .dir entries =>
    if entries.length > 0 then .error .targetNotEmpty
    else .ok (copyBase template fs targetDir)
  | _ => .ok (copyBase template fs targetDir)

example :
    injectCode [("a.ts".data, "x\n// INJECT:A\ny".data)] "a.ts".data
      "// INJECT:A".data "code();".data =
    .ok ([("a.ts".data, "x\ncode();\n  // INJECT:A\ny".data)], true) := by
  rfl

example :
    injectCode [("a.ts".data, "x\ny".data)] "a.ts".data "// INJECT:A".data
      "code();".data = .ok ([("a.ts".data, "x\ny".data)], false) := by
  rfl

example :
    injectCode [] ".env.example".data "# INJECT:ENV_VARS".data "KEY=1".data =
    .ok ([(".env.example".data, "# INJECT:ENV_VARS\nKEY=1\n".data)], true) := by
  rfl

/-! ### Lemmas about first-occurrence search -/

theorem splitFirst_sound {pat : Str} : ∀ {s pre post : Str},
    splitFirst pat s = some (pre, post) → s = pre ++ pat ++ post := by
  intro s
  induction s with
  | nil =>
    intro pre post h
    rw [splitFirst] at h
    by_cases hp : pat.isEmpty
    · rw [if_pos hp] at h
      injection h with h₂
      cases h₂
      rw [List.isEmpty_iff.mp hp]
      rfl
    · rw [if_neg hp] at h
      cases h
  | cons c rest ih =>
    intro pre post h
    rw [splitFirst] at h
    by_cases hp : pat.isPrefixOf (c :: rest)
    · rw [if_pos hp] at h
      injection h with h₂
      cases h₂
      have htake : pat = (c :: rest).take pat.length :=
        List.prefix_iff_eq_take.mp (List.isPrefixOf_iff_prefix.mp hp)
      conv_lhs => rw [← List.take_append_drop pat.length (c :: rest)]
      rw [← htake, List.nil_append]
    · rw [if_neg hp] at h
      rcases hm : splitFirst pat rest with _ | ⟨pre', post'⟩ <;> rw [hm] at h
      · cases h
      · injection h with h₂
        cases h₂
        show c :: rest = c :: (pre' ++ pat ++ post)
        rw [← ih hm]

theorem isPrefixOf_append_of_le {pat x : Str} (y : Str)
    (hlen : pat.length ≤ x.length) :
    pat.isPrefixOf (x ++ y) = pat.isPrefixOf x := by
  rw [Bool.eq_iff_iff, List.isPrefixOf_iff_prefix, List.isPrefixOf_iff_prefix]
  constructor
  · intro h
    rw [List.prefix_iff_eq_take] at h ⊢
    rwa [List.take_append_of_le_length hlen] at h
  · intro h
    exact h.trans (List.prefix_append x y)

theorem splitFirst_append_end {pat : Str} : ∀ {A B : Str} (post : Str),
    splitFirst pat A = some (B, []) →
    splitFirst pat (A ++ post) = some (B, post) := by
  intro A
  induction A with
  | nil =>
    intro B post h
    rw [splitFirst] at h
    by_cases hp : pat.isEmpty
    · rw [if_pos hp] at h
      injection h with h₂
      cases h₂
      have hpnil : pat = [] := List.isEmpty_iff.mp hp
      subst hpnil
      cases post with
      | nil => rfl
      | cons d ds =>
        rw [List.nil_append, splitFirst, if_pos (by rfl)]
        rfl
    · rw [if_neg hp] at h
      cases h
  | cons c A' ih =>
    intro B post h
    rw [splitFirst] at h
    by_cases hp : pat.isPrefixOf (c :: A')
    · rw [if_pos hp] at h
      injection h with h₂
      injection h₂ with hB hdrop
      have htake : pat = (c :: A').take pat.length :=
        List.prefix_iff_eq_take.mp (List.isPrefixOf_iff_prefix.mp hp)
      have hA : c :: A' = pat := by
        conv_lhs => rw [← List.take_append_drop pat.length (c :: A')]
        rw [← htake, hdrop, List.append_nil]
      rw [List.cons_append, splitFirst]
      have hcond : pat.isPrefixOf (c :: (A' ++ post)) = true := by
        have : c :: (A' ++ post) = pat ++ post := by
          rw [← hA]
          rfl
        rw [this]
        exact List.isPrefixOf_iff_prefix.mpr (List.prefix_append pat post)
      rw [if_pos hcond, ← hB]
      have hdropv : (c :: (A' ++ post)).drop pat.length = post := by
        have : c :: (A' ++ post) = pat ++ post := by
          rw [← hA]
          rfl
        rw [this, List.drop_left]
      rw [hdropv]
    · rw [if_neg hp] at h
      rcases hm : splitFirst pat A' with _ | ⟨pre', post'⟩ <;> rw [hm] at h
      · cases h
      · injection h with h₂
        injection h₂ with hB hpost
        subst hpost
        have hlen : pat.length ≤ (c :: A').length := by
          have := splitFirst_sound hm
          subst this
          simp only [List.length_cons, List.length_append]
          omega

        rw [List.cons_append, splitFirst]
        have hcond : pat.isPrefixOf (c :: (A' ++ post)) = false := by
          have heq : c :: (A' ++ post) = (c :: A') ++ post := rfl
          rw [heq, isPrefixOf_append_of_le post hlen]
          exact Bool.not_eq_true _ ▸ hp
        rw [if_neg (by rw [hcond]; exact Bool.false_ne_true)]
        rw [ih post hm, ← hB]

theorem splitFirst_complete_assoc (pat x y : Str) :
    (splitFirst pat (x ++ (pat ++ y))).isSome = true := by
  induction x with
  | nil =>
    rw [List.nil_append]
    cases pat with
    | nil =>
      cases y with
      | nil => rfl
      | cons d ds =>
        rw [List.nil_append, splitFirst, if_pos (by rfl)]
        rfl
    | cons p pr =>
      rw [List.cons_append, splitFirst]
      rw [if_pos (List.isPrefixOf_iff_prefix.mpr
        (by rw [← List.cons_append]; exact List.prefix_append (p :: pr) y))]
      rfl
  | cons c x' ih =>
    rw [List.cons_append, splitFirst]
    by_cases hp : pat.isPrefixOf (c :: (x' ++ (pat ++ y)))
    · rw [if_pos hp]
      rfl
    · rw [if_neg hp]
      rcases hm : splitFirst pat (x' ++ (pat ++ y)) with _ | ⟨pre, post⟩
      · rw [hm] at ih
        cases ih
      · rfl

theorem containsStr_of_parts (x pat y : Str) : containsStr (x ++ pat ++ y) pat = true := by
  unfold containsStr
  rw [List.append_assoc]
  exact splitFirst_complete_assoc pat x y

/-! ### Lemmas about line splitting and joining -/

theorem splitOnChar_ne_nil (sep : Char) : ∀ s : Str, splitOnChar sep s ≠ [] := by
  intro s
  induction s with
  | nil => simp [splitOnChar]
  | cons c cs ih =>
    rw [splitOnChar]
    by_cases hc : c = sep
    · rw [if_pos hc]
      simp
    · rw [if_neg hc]
      rcases hm : splitOnChar sep cs with _ | ⟨h₀, t₀⟩
      · exact absurd hm ih
      · simp

theorem join_splitOnChar (sep : Char) : ∀ s : Str,
    joinWithChar sep (splitOnChar sep s) = s := by
  intro s
  induction s with
  | nil => rfl
  | cons c cs ih =>
    rw [splitOnChar]
    by_cases hc : c = sep
    · rw [if_pos hc]
      rcases hm : splitOnChar sep cs with _ | ⟨h₀, t₀⟩
      · exact absurd hm (splitOnChar_ne_nil sep cs)
      · rw [joinWithChar, List.nil_append, ← hm, ih, hc]
    · rw [if_neg hc]
      rcases hm : splitOnChar sep cs with _ | ⟨h₀, t₀⟩
      · exact absurd hm (splitOnChar_ne_nil sep cs)
      · rw [hm] at ih
        cases t₀ with
        | nil =>
          rw [joinWithChar]
          rw [joinWithChar] at ih
          exact congrArg (c :: ·) ih
        | cons h₁ t₁ =>
          rw [joinWithChar]
          rw [joinWithChar] at ih
          show c :: (h₀ ++ sep :: joinWithChar sep (h₁ :: t₁)) = c :: cs
          rw [ih]

theorem not_mem_of_mem_splitOnChar {sep : Char} : ∀ {s l : Str},
    l ∈ splitOnChar sep s → sep ∉ l := by
  intro s
  induction s with
  | nil =>
    intro l hl
    rw [splitOnChar] at hl
    rcases List.mem_singleton.mp hl
    simp
  | cons c cs ih =>
    intro l hl
    rw [splitOnChar] at hl
    by_cases hc : c = sep
    · rw [if_pos hc] at hl
      rcases List.mem_cons.mp hl with h | h
      · subst h
        simp
      · exact ih h
    · rw [if_neg hc] at hl
      rcases hm : splitOnChar sep cs with _ | ⟨h₀, t₀⟩ <;> rw [hm] at hl
      · exact absurd hm (splitOnChar_ne_nil sep cs)
      · rcases List.mem_cons.mp hl with h | h
        · subst h
          intro hmem
          rcases List.mem_cons.mp hmem with h' | h'
          · exact hc h'.symm
          · exact ih (hm ▸ List.mem_cons_self h₀ t₀) h'
        · exact ih (hm ▸ List.mem_cons_of_mem h₀ h)

theorem splitOnChar_of_no_sep {sep : Char} : ∀ {l : Str},
    sep ∉ l → splitOnChar sep l = [l] := by
  intro l
  induction l with
  | nil => intro _; rfl
  | cons c cs ih =>
    intro h
    rw [splitOnChar, if_neg (fun hceq => h (List.mem_cons.mpr (Or.inl hceq.symm))),
      ih (fun hm => h (List.mem_cons_of_mem c hm))]

theorem splitOnChar_append_sep {sep : Char} : ∀ {l : Str} (r : Str),
    sep ∉ l → splitOnChar sep (l ++ sep :: r) = l :: splitOnChar sep r := by
  intro l
  induction l with
  | nil =>
    intro r _
    rw [List.nil_append, splitOnChar, if_pos rfl]
  | cons c cs ih =>
    intro r h
    rw [List.cons_append, splitOnChar,
      if_neg (fun hceq => h (List.mem_cons.mpr (Or.inl hceq.symm))),
      ih r (fun hm => h (List.mem_cons_of_mem c hm))]

theorem splitOnChar_join_of_no_sep {sep : Char} : ∀ {ls : List Str},
    ls ≠ [] → (∀ l ∈ ls, sep ∉ l) →
    splitOnChar sep (joinWithChar sep ls) = ls := by
  intro ls
  induction ls with
  | nil => intro h _; exact absurd rfl h
  | cons l rest ih =>
    intro _ hall
    cases rest with
    | nil =>
      rw [joinWithChar]
      exact splitOnChar_of_no_sep (hall l (List.mem_cons_self l []))
    | cons l₂ rest₂ =>
      rw [joinWithChar,
        splitOnChar_append_sep _ (hall l (List.mem_cons_self l _)),
        ih (by simp) (fun x hx => hall x (List.mem_cons_of_mem l hx))]

theorem splitOnChar_head_decomp {sep : Char} : ∀ {s : Str} {h : Str} {t : List Str},
    splitOnChar sep s = h :: t →
    ∃ b, s = h ++ b ∧ (b = [] ∨ ∃ b', b = sep :: b') := by
  intro s
  induction s with
  | nil =>
    intro h t hs
    rw [splitOnChar] at hs
    injection hs with h₁ h₂
    exact ⟨[], by rw [← h₁]; rfl, Or.inl rfl⟩
  | cons c cs ih =>
    intro h t hs
    rw [splitOnChar] at hs
    by_cases hc : c = sep
    · rw [if_pos hc] at hs
      injection hs with h₁ h₂
      exact ⟨c :: cs, by rw [← h₁]; rfl, Or.inr ⟨cs, by rw [hc]⟩⟩
    · rw [if_neg hc] at hs
      rcases hm : splitOnChar sep cs with _ | ⟨h₀, t₀⟩ <;> rw [hm] at hs
      · exact absurd hm (splitOnChar_ne_nil sep cs)
      · injection hs with h₁ h₂
        rcases ih hm with ⟨b, hb, hd⟩
        exact ⟨b, by rw [← h₁, List.cons_append, ← hb], hd⟩

theorem splitOnChar_tail_decomp {sep : Char} : ∀ {s : Str} {h : Str} {t : List Str} {l : Str},
    splitOnChar sep s = h :: t → l ∈ t →
    ∃ a b, s = a ++ l ++ b ∧ ∃ a', a = a' ++ [sep] := by
  intro s
  induction s with
  | nil =>
    intro h t l hs hl
    rw [splitOnChar] at hs
    injection hs with h₁ h₂
    rw [← h₂] at hl
    cases hl
  | cons c cs ih =>
    intro h t l hs hl
    rw [splitOnChar] at hs
    by_cases hc : c = sep
    · rw [if_pos hc] at hs
      injection hs with h₁ h₂
      subst h₂
      rcases hm : splitOnChar sep cs with _ | ⟨h₀, t₀⟩
      · exact absurd hm (splitOnChar_ne_nil sep cs)
      · rw [hm] at hl
        rcases List.mem_cons.mp hl with hcase | hcase
        · subst hcase
          rcases splitOnChar_head_decomp hm with ⟨b, hb, _⟩
          refine ⟨[c], b, ?_, [], by rw [hc]; rfl⟩
          rw [hb]
          rfl
        · rcases ih hm hcase with ⟨a, b, hab, a', ha'⟩
          refine ⟨c :: a, b, ?_, c :: a', by rw [ha']; rfl⟩
          rw [hab]
          rfl
    · rw [if_neg hc] at hs
      rcases hm : splitOnChar sep cs with _ | ⟨h₀, t₀⟩ <;> rw [hm] at hs
      · exact absurd hm (splitOnChar_ne_nil sep cs)
      · injection hs with h₁ h₂
        subst h₂
        rcases ih hm hl with ⟨a, b, hab, a', ha'⟩
        refine ⟨c :: a, b, ?_, c :: a', by rw [ha']; rfl⟩
        rw [hab]
        rfl

/-! ### Lemmas about whitespace trimming and marker lines -/

theorem takeWhile_sat (p : Char → Bool) : ∀ l : Str, (l.takeWhile p).all p = true := by
  intro l
  induction l with
  | nil => rfl
  | cons c cs ih =>
    rw [List.takeWhile]
    by_cases hc : p c
    · rw [hc]
      simpa [hc]
    · rw [Bool.not_eq_true] at hc
      rw [hc]
      rfl

theorem all_reverse_sat {p : Char → Bool} {l : Str} (h : l.all p = true) :
    l.reverse.all p = true := by
  rw [List.all_eq_true] at h ⊢
  intro x hx
  exact h x (List.mem_reverse.mp hx)

theorem isMarkerLine_iff {m l : Str} : isMarkerLine m l = true ↔ trimWs l = m := by
  simp [isMarkerLine]

theorem markerLine_decomp {m l : Str} (h : isMarkerLine m l = true) :
    ∃ w w', l = w ++ m ++ w' ∧ w.all isWsChar = true ∧ w'.all isWsChar = true := by
  have htrim : trimWs l = m := isMarkerLine_iff.mp h
  refine ⟨l.takeWhile isWsChar,
    ((l.dropWhile isWsChar).reverse.takeWhile isWsChar).reverse, ?_, ?_, ?_⟩
  · have h1 : l = l.takeWhile isWsChar ++ l.dropWhile isWsChar :=
      (List.takeWhile_append_dropWhile isWsChar l).symm
    have h2 : l.dropWhile isWsChar =
        ((l.dropWhile isWsChar).reverse.dropWhile isWsChar).reverse ++
        ((l.dropWhile isWsChar).reverse.takeWhile isWsChar).reverse := by
      conv_lhs => rw [← List.reverse_reverse (l.dropWhile isWsChar)]
      conv_lhs =>
        rw [show (l.dropWhile isWsChar).reverse =
          (l.dropWhile isWsChar).reverse.takeWhile isWsChar ++
          (l.dropWhile isWsChar).reverse.dropWhile isWsChar from
          (List.takeWhile_append_dropWhile isWsChar (l.dropWhile isWsChar).reverse).symm]
      rw [List.reverse_append]
    have h3 : ((l.dropWhile isWsChar).reverse.dropWhile isWsChar).reverse = m := htrim
    rw [List.append_assoc]
    conv_lhs => rw [h1, h2, h3]
  · exact takeWhile_sat isWsChar l
  · exact all_reverse_sat (takeWhile_sat isWsChar _)

theorem markerLine_unique {m m' l : Str} (h : isMarkerLine m l = true)
    (h' : isMarkerLine m' l = true) : m = m' :=
  (isMarkerLine_iff.mp h).symm.trans (isMarkerLine_iff.mp h')

/-! ### The tokenizer rejects any content with a comment line -/

theorem unescapeChar_newline : unescapeChar '\n' = none := rfl

theorem scanString_consumed : ∀ (n : Nat) (cs : Str), cs.length ≤ n →
    ∀ {s r : Str}, scanString cs = some (s, r) →
    ∃ consumed, cs = consumed ++ r ∧ '\n' ∉ consumed := by
  intro n
  induction n with
  | zero =>
    intro cs hlen s r hscan
    have : cs = [] := List.length_eq_zero.mp (Nat.le_zero.mp hlen)
    subst this
    cases hscan
  | succ n ih =>
    intro cs hlen s r hscan
    cases cs with
    | nil => cases hscan
    | cons c cs₂ =>
      rw [scanString.eq_def] at hscan
      simp only [] at hscan
      by_cases hq : c = '"'
      · subst hq
        rw [if_pos rfl] at hscan
        injection hscan with h₂
        injection h₂ with hs hr
        exact ⟨['"'], by rw [hr]; rfl, by decide⟩
      · rw [if_neg hq] at hscan
        by_cases hb : c = '\\'
        · subst hb
          rw [if_pos rfl] at hscan
          cases cs₂ with
          | nil => cases hscan
          | cons e cs₃ =>
            dsimp only at hscan
            rcases hu : unescapeChar e with _ | ch <;> rw [hu] at hscan
            · cases hscan
            · rcases hs₃ : scanString cs₃ with _ | ⟨s₃, r₃⟩ <;> rw [hs₃] at hscan
              · cases hscan
              · injection hscan with h₂
                injection h₂ with hs hr
                have hlen₃ : cs₃.length ≤ n := by
                  simp only [List.length_cons] at hlen
                  omega
                rcases ih cs₃ hlen₃ hs₃ with ⟨con₃, hcon₃, hnl₃⟩
                refine ⟨'\\' :: e :: con₃, ?_, ?_⟩
                · rw [hcon₃, ← hr]
                  rfl
                · intro hmem
                  rcases List.mem_cons.mp hmem with h' | h'
                  · cases h'
                  · rcases List.mem_cons.mp h' with h'' | h''
                    · rw [← h''] at hu
                      rw [unescapeChar_newline] at hu
                      cases hu
                    · exact hnl₃ h''
        · rw [if_neg hb] at hscan
          by_cases hctl : c.toNat < 32
          · rw [if_pos hctl] at hscan
            cases hscan
          · rw [if_neg hctl] at hscan
            rcases hs₂ : scanString cs₂ with _ | ⟨s₂, r₂⟩ <;> rw [hs₂] at hscan
            · cases hscan
            · injection hscan with h₂
              injection h₂ with hs hr
              have hlen₂ : cs₂.length ≤ n := by
                simp only [List.length_cons] at hlen
                omega
              rcases ih cs₂ hlen₂ hs₂ with ⟨con₂, hcon₂, hnl₂⟩
              refine ⟨c :: con₂, ?_, ?_⟩
              · rw [hcon₂, ← hr]
                rfl
              · intro hmem
                rcases List.mem_cons.mp hmem with h' | h'
                · exact hctl (h' ▸ (by decide))
                · exact hnl₂ h'

theorem scanNumber_consumed {cs : Str} {n : Int} {r : Str}
    (h : scanNumber cs = some (n, r)) :
    ∃ consumed, cs = consumed ++ r ∧ '\n' ∉ consumed := by
  cases cs with
  | nil => cases h
  | cons c cs₂ =>
    rw [scanNumber] at h
    have hdigits : ∀ x : Str, '\n' ∉ x.takeWhile Char.isDigit := by
      intro x hmem
      have := List.all_eq_true.mp (takeWhile_sat Char.isDigit x) _ hmem
      rw [show ('\n'.isDigit) = false from rfl] at this
      cases this
    by_cases hminus : c = '-'
    · rw [if_pos hminus] at h
      by_cases hds : (cs₂.takeWhile Char.isDigit).isEmpty
      · rw [if_pos hds] at h
        cases h
      · rw [if_neg hds] at h
        injection h with h₂
        injection h₂ with hn hr
        refine ⟨c :: cs₂.takeWhile Char.isDigit, ?_, ?_⟩
        · rw [← hr, List.cons_append, List.takeWhile_append_dropWhile]
        · intro hmem
          rcases List.mem_cons.mp hmem with h' | h'
          · rw [← h'] at hminus
            cases hminus
          · exact hdigits cs₂ h'
    · rw [if_neg hminus] at h
      by_cases hds : (((c :: cs₂) : Str).takeWhile Char.isDigit).isEmpty
      · rw [if_pos hds] at h
        cases h
      · rw [if_neg hds] at h
        injection h with h₂
        injection h₂ with hn hr
        refine ⟨((c :: cs₂) : Str).takeWhile Char.isDigit, ?_, ?_⟩
        · rw [← hr, List.takeWhile_append_dropWhile]
        · exact hdigits (c :: cs₂)

theorem isPrefixOf_decomp {pat cs : Str} (h : pat.isPrefixOf cs = true) :
    cs = pat ++ cs.drop pat.length := by
  have htake : pat = cs.take pat.length :=
    List.prefix_iff_eq_take.mp (List.isPrefixOf_iff_prefix.mp h)
  conv_lhs => rw [← List.take_append_drop pat.length cs]
  rw [← htake]

theorem consume_before_newline : ∀ {a : Str} {r b X : Str},
    a ++ r = b ++ '\n' :: X → '\n' ∉ a →
    ∃ b₂, b = a ++ b₂ ∧ r = b₂ ++ '\n' :: X := by
  intro a
  induction a with
  | nil =>
    intro r b X heq _
    exact ⟨b, rfl, heq⟩
  | cons c a' ih =>
    intro r b X heq hnl
    cases b with
    | nil =>
      rw [List.nil_append] at heq
      injection heq with h₁ h₂
      exact absurd (h₁ ▸ List.mem_cons_self c a') hnl
    | cons d b' =>
      rw [List.cons_append, List.cons_append] at heq
      injection heq with h₁ h₂
      rcases ih h₂ (fun hm => hnl (List.mem_cons_of_mem c hm)) with ⟨b₂, hb, hr⟩
      exact ⟨b₂, by rw [h₁, hb]; rfl, hr⟩

/-- Left contexts from which a comment-line head is unreachable for the
tokenizer: empty, or ending right after a newline. -/
def endsNl (u : Str) : Prop :=
  u = [] ∨ ∃ u₁, u = u₁ ++ ['\n']

theorem tokenizeAux_slash (fuel : Nat) (v : Str) :
    tokenizeAux (fuel + 1) ('/' :: v) = none := rfl

theorem tokenizeAux_hash (fuel : Nat) (v : Str) :
    tokenizeAux (fuel + 1) ('#' :: v) = none := rfl

theorem tokenizeAux_comment_line (bc : Char) (hb : bc = '/' ∨ bc = '#') (v : Str) :
    ∀ (fuel : Nat) (u w : Str), endsNl u → w.all isWsChar = true →
    tokenizeAux fuel (u ++ (w ++ bc :: v)) = none := by
  intro fuel
  induction fuel with
  | zero => intro u w _ _; rfl
  | succ fuel ih =>
    intro u w hu hw
    rcases hu with rfl | ⟨u₁, rfl⟩
    · rw [List.nil_append]
      cases w with
      | nil =>
        rw [List.nil_append]
        rcases hb with rfl | rfl
        · exact tokenizeAux_slash fuel v
        · exact tokenizeAux_hash fuel v
      | cons cw w' =>
        rw [List.cons_append, tokenizeAux]
        have hcw : isWsChar cw = true := by
          rw [List.all_cons] at hw
          exact (Bool.and_eq_true _ _ |>.mp hw).1
        rw [if_pos hcw]
        have hw' : w'.all isWsChar = true := by
          rw [List.all_cons] at hw
          exact (Bool.and_eq_true _ _ |>.mp hw).2
        have := ih [] w' (Or.inl rfl) hw'
        rwa [List.nil_append] at this
    · cases u₁ with
      | nil =>
        rw [List.nil_append, List.cons_append, tokenizeAux,
          if_pos (show isWsChar '\n' = true by decide)]
        have := ih [] w (Or.inl rfl) hw
        rwa [List.nil_append] at this
      | cons c u₂ =>
        -- input is c :: (u₂ ++ '\n' :: (w ++ bc :: v))
        have hshape : ((c :: u₂ ++ ['\n']) ++ (w ++ bc :: v)) =
            c :: (u₂ ++ '\n' :: (w ++ bc :: v)) := by
          simp
        rw [hshape, tokenizeAux]
        have ihR : ∀ u', endsNl u' →
            tokenizeAux fuel (u' ++ (w ++ bc :: v)) = none :=
          fun u' hu' => ih u' w hu' hw
        have hXfold : u₂ ++ '\n' :: (w ++ bc :: v) =
            (u₂ ++ ['\n']) ++ (w ++ bc :: v) := by
          simp
        have hrec : tokenizeAux fuel (u₂ ++ '\n' :: (w ++ bc :: v)) = none := by
          rw [hXfold]
          exact ihR (u₂ ++ ['\n']) (Or.inr ⟨u₂, rfl⟩)
        by_cases h₁ : isWsChar c = true
        · rw [if_pos h₁]
          exact hrec
        · rw [if_neg h₁]
          by_cases h₂ : c = '{'
          · rw [if_pos h₂, hrec]; rfl
          · rw [if_neg h₂]
            by_cases h₃ : c = '}'
            · rw [if_pos h₃, hrec]; rfl
            · rw [if_neg h₃]
              by_cases h₄ : c = '['
              · rw [if_pos h₄, hrec]; rfl
              · rw [if_neg h₄]
                by_cases h₅ : c = ']'
                · rw [if_pos h₅, hrec]; rfl
                · rw [if_neg h₅]
                  by_cases h₆ : c = ','
                  · rw [if_pos h₆, hrec]; rfl
                  · rw [if_neg h₆]
                    by_cases h₇ : c = ':'
                    · rw [if_pos h₇, hrec]; rfl
                    · rw [if_neg h₇]
                      by_cases h₈ : c = '"'
                      · rw [if_pos h₈]
                        rcases hscan : scanString (u₂ ++ '\n' :: (w ++ bc :: v)) with _ | ⟨s, r⟩
                        · rfl
                        · rcases scanString_consumed
                            (u₂ ++ '\n' :: (w ++ bc :: v)).length _ le_rfl hscan with
                            ⟨con, hcon, hnlcon⟩
                          rcases consume_before_newline hcon.symm hnlcon with ⟨b₂, _, hr⟩
                          have : tokenizeAux fuel r = none := by
                            rw [hr,
                              show b₂ ++ '\n' :: (w ++ bc :: v) =
                                (b₂ ++ ['\n']) ++ (w ++ bc :: v) by simp]
                            exact ihR (b₂ ++ ['\n']) (Or.inr ⟨b₂, rfl⟩)
                          simp [this]
                      · rw [if_neg h₈]
                        by_cases h₉ : (c = '-' || c.isDigit) = true
                        · rw [if_pos h₉]
                          rcases hscan : scanNumber (c :: (u₂ ++ '\n' :: (w ++ bc :: v))) with
                            _ | ⟨nr, r⟩
                          · rfl
                          · rcases scanNumber_consumed hscan with ⟨con, hcon, hnlcon⟩
                            have hcon₂ : con ++ r = (c :: u₂) ++ '\n' :: (w ++ bc :: v) := by
                              rw [← hcon]
                              rfl
                            rcases consume_before_newline hcon₂ hnlcon with ⟨b₂, _, hr⟩
                            have : tokenizeAux fuel r = none := by
                              rw [hr,
                                show b₂ ++ '\n' :: (w ++ bc :: v) =
                                  (b₂ ++ ['\n']) ++ (w ++ bc :: v) by simp]
                              exact ihR (b₂ ++ ['\n']) (Or.inr ⟨b₂, rfl⟩)
                            simp [this]
                        · rw [if_neg h₉]
                          by_cases hA : c = 't'
                          · rw [if_pos hA]
                            by_cases hpre : List.isPrefixOf "rue".data (u₂ ++ '\n' :: (w ++ bc :: v)) = true
                            · rw [if_pos hpre]
                              have hdec := isPrefixOf_decomp hpre
                              rcases consume_before_newline hdec.symm (by decide) with ⟨b₂, _, hr⟩
                              have : tokenizeAux fuel ((u₂ ++ '\n' :: (w ++ bc :: v)).drop 3) = none := by
                                rw [show ((u₂ ++ '\n' :: (w ++ bc :: v)).drop 3) =
                                    ((u₂ ++ '\n' :: (w ++ bc :: v)).drop ("rue".data.length)) from rfl,
                                  hr,
                                  show b₂ ++ '\n' :: (w ++ bc :: v) =
                                    (b₂ ++ ['\n']) ++ (w ++ bc :: v) by simp]
                                exact ihR (b₂ ++ ['\n']) (Or.inr ⟨b₂, rfl⟩)
                              rw [this]
                              rfl
                            · rw [if_neg hpre]
                          · rw [if_neg hA]
                            by_cases hB : c = 'f'
                            · rw [if_pos hB]
                              by_cases hpre : List.isPrefixOf "alse".data (u₂ ++ '\n' :: (w ++ bc :: v)) = true
                              · rw [if_pos hpre]
                                have hdec := isPrefixOf_decomp hpre
                                rcases consume_before_newline hdec.symm (by decide) with ⟨b₂, _, hr⟩
                                have : tokenizeAux fuel ((u₂ ++ '\n' :: (w ++ bc :: v)).drop 4) = none := by
                                  rw [show ((u₂ ++ '\n' :: (w ++ bc :: v)).drop 4) =
                                      ((u₂ ++ '\n' :: (w ++ bc :: v)).drop ("alse".data.length)) from rfl,
                                    hr,
                                    show b₂ ++ '\n' :: (w ++ bc :: v) =
                                      (b₂ ++ ['\n']) ++ (w ++ bc :: v) by simp]
                                  exact ihR (b₂ ++ ['\n']) (Or.inr ⟨b₂, rfl⟩)
                                rw [this]
                                rfl
                              · rw [if_neg hpre]
                            · rw [if_neg hB]
                              by_cases hC : c = 'n'
                              · rw [if_pos hC]
                                by_cases hpre : List.isPrefixOf "ull".data (u₂ ++ '\n' :: (w ++ bc :: v)) = true
                                · rw [if_pos hpre]
                                  have hdec := isPrefixOf_decomp hpre
                                  rcases consume_before_newline hdec.symm (by decide) with ⟨b₂, _, hr⟩
                                  have : tokenizeAux fuel ((u₂ ++ '\n' :: (w ++ bc :: v)).drop 3) = none := by
                                    rw [show ((u₂ ++ '\n' :: (w ++ bc :: v)).drop 3) =
                                        ((u₂ ++ '\n' :: (w ++ bc :: v)).drop ("ull".data.length)) from rfl,
                                      hr,
                                      show b₂ ++ '\n' :: (w ++ bc :: v) =
                                        (b₂ ++ ['\n']) ++ (w ++ bc :: v) by simp]
                                    exact ihR (b₂ ++ ['\n']) (Or.inr ⟨b₂, rfl⟩)
                                  rw [this]
                                  rfl
                                · rw [if_neg hpre]
                              · rw [if_neg hC]

theorem markerGrammarOk_head {m₀ : Char} {mtail : Str}
    (h : markerGrammarOk (m₀ :: mtail) = true) : m₀ = '/' ∨ m₀ = '#' := by
  rw [markerGrammarOk.eq_def] at h
  dsimp only at h
  by_cases h₁ : m₀ = '#'
  · exact Or.inr h₁
  · rw [if_neg h₁] at h
    by_cases h₂ : m₀ = '/'
    · exact Or.inl h₂
    · rw [if_neg h₂] at h
      cases h

/-- A file whose text contains a standalone comment-style marker line is
rejected by the JSON parser. -/
theorem parseJson_fails_of_marker_line {M c : Str}
    (hg : markerGrammarOk M = true) (hm : hasMarkerLine M c = true) :
    parseJson c = none := by
  rcases List.any_eq_true.mp hm with ⟨l, hl, hml⟩
  rcases markerLine_decomp hml with ⟨w, w', hldec, hwall, _⟩
  cases M with
  | nil => cases hg
  | cons m₀ M' =>
    have hhead := markerGrammarOk_head hg
    have htok : tokenize c = none := by
      rcases hsplit : splitOnChar '\n' c with _ | ⟨h₀, t₀⟩
      · exact absurd hsplit (splitOnChar_ne_nil '\n' c)
      · rw [hsplit] at hl
        have hdecomp : ∃ a b, c = a ++ l ++ b ∧ endsNl a := by
          rcases List.mem_cons.mp hl with hcase | hcase
          · subst hcase
            rcases splitOnChar_head_decomp hsplit with ⟨b, hb, _⟩
            exact ⟨[], b, by rw [List.nil_append, hb], Or.inl rfl⟩
          · rcases splitOnChar_tail_decomp hsplit hcase with ⟨a, b, hab, a', ha'⟩
            exact ⟨a, b, hab, Or.inr ⟨a', ha'⟩⟩
        rcases hdecomp with ⟨a, b, hab, hends⟩
        have hc : c = a ++ (w ++ m₀ :: (M' ++ (w' ++ b))) := by
          rw [hab, hldec]
          simp
        unfold tokenize
        rw [hc]
        exact tokenizeAux_comment_line m₀ hhead (M' ++ (w' ++ b)) _ a w hends hwall
    unfold parseJson
    rw [htok]

/-! ### Line preservation through marker stripping and cleanup -/

theorem lines_stripMarkerLines (m c : Str) :
    splitOnChar '\n' (stripMarkerLines m c) =
    (splitOnChar '\n' c).map (fun l => if isMarkerLine m l then [] else l) := by
  unfold stripMarkerLines
  apply splitOnChar_join_of_no_sep
  · intro hnil
    exact splitOnChar_ne_nil '\n' c (List.map_eq_nil_iff.mp hnil)
  · intro l hl
    rcases List.mem_map.mp hl with ⟨x, hx, hfx⟩
    by_cases hmark : isMarkerLine m x = true
    · rw [if_pos hmark] at hfx
      rw [← hfx]
      exact List.not_mem_nil '\n'
    · rw [if_neg hmark] at hfx
      rw [← hfx]
      exact not_mem_of_mem_splitOnChar hx

theorem mem_lines_stripMarkerLines {m c l : Str}
    (hl : l ∈ splitOnChar '\n' c) (hnot : isMarkerLine m l = false) :
    l ∈ splitOnChar '\n' (stripMarkerLines m c) := by
  rw [lines_stripMarkerLines]
  exact List.mem_map.mpr ⟨l, hl, by rw [hnot]; exact if_neg Bool.false_ne_true⟩

theorem mem_lines_cleanTextContent {applied : List Str} {c l : Str}
    (hl : l ∈ splitOnChar '\n' c)
    (hnone : ∀ m ∈ applied, isMarkerLine m l = false) :
    l ∈ splitOnChar '\n' (cleanTextContent applied c).1 := by
  unfold cleanTextContent
  suffices hgen : ∀ st : Str × Bool, l ∈ splitOnChar '\n' st.1 →
      l ∈ splitOnChar '\n' (applied.foldl cleanMarkerStep st).1 by
    exact hgen (c, false) hl
  clear hl
  induction applied with
  | nil => intro st h; exact h
  | cons m rest ih =>
    intro st h
    rw [List.foldl_cons]
    apply ih
    · intro m' hm'
      exact hnone m' (List.mem_cons_of_mem m hm')
    · unfold cleanMarkerStep
      by_cases hhas : hasMarkerLine m st.1 = true
      · rw [if_pos hhas]
        exact mem_lines_stripMarkerLines h (hnone m (List.mem_cons_self m rest))
      · rw [if_neg hhas]
        exact h

theorem hasMarkerLine_of_mem_line {m l c : Str}
    (hl : l ∈ splitOnChar '\n' c) (h : isMarkerLine m l = true) :
    hasMarkerLine m c = true :=
  List.any_eq_true.mpr ⟨l, hl, h⟩

/-- Core cleanup-safety fact: a line carrying a grammar-conformant marker
that was never applied in the run survives `cleanupFile` in every file,
including the JSON-rewritten `package.json` path (where such a line makes
the re-parse fail, forcing the textual fallback). -/
theorem cleanupFile_preserves_unapplied_line {applied : List Str} {M p c l : Str}
    (hg : markerGrammarOk M = true) (hM : M ∉ applied)
    (hl : l ∈ splitOnChar '\n' c) (hml : isMarkerLine M l = true) :
    l ∈ splitOnChar '\n' (cleanupFile applied p c) := by
  have hnone : ∀ m ∈ applied, isMarkerLine m l = false := by
    intro m hm
    by_cases hcase : isMarkerLine m l = true
    · exact absurd (markerLine_unique hml hcase ▸ hm) hM
    · exact Bool.not_eq_true _ |>.mp hcase
  unfold cleanupFile
  by_cases hglob : (cleanupGlobMatch p && !endsWithStr p ".env.example".data) = true
  · rw [if_pos hglob]
    have hmem := mem_lines_cleanTextContent hl hnone
    have hmark : hasMarkerLine M (cleanTextContent applied c).1 = true :=
      hasMarkerLine_of_mem_line hmem hml
    by_cases hpkg : endsWithStr p pkgSuffix = true
    · rw [if_pos hpkg]
      by_cases hmod : (cleanTextContent applied c).2 = true
      · rw [if_pos hmod]
        rw [parseJson_fails_of_marker_line hg hmark]
        exact hmem
      · rw [if_neg hmod]
        exact hl
    · rw [if_neg hpkg]
      by_cases hmod : (cleanTextContent applied c).2 = true
      · rw [if_pos hmod]
        exact hmem
      · rw [if_neg hmod]
        exact hl
  · rw [if_neg hglob]
    exact hl

/-! ### Lemmas about dependency maps and their merge -/

theorem lookupDep_setDep (d : Deps) (k v q : Str) :
    lookupDep (setDep d k v) q = if q = k then some v else lookupDep d q := by
  induction d with
  | nil =>
    by_cases hq : q = k
    · subst hq
      simp [setDep, lookupDep]
    · have hq' : ¬ k = q := fun h => hq h.symm
      simp [setDep, lookupDep, hq, hq']
  | cons e rest ih =>
    rcases e with ⟨k', v'⟩
    by_cases hk : k' = k
    · subst hk
      by_cases hq : q = k'
      · subst hq
        simp [setDep, lookupDep]
      · have hq' : ¬ k' = q := fun h => hq h.symm
        simp [setDep, lookupDep, hq, hq']
    · by_cases hq : k' = q
      · subst hq
        simp [setDep, lookupDep, hk]
      · simp [setDep, lookupDep, hk, hq, ih]

/-- Keys of a dependency map. -/
def depKeys (d : Deps) : List Str :=
  d.map Prod.fst

theorem lookupDep_eq_none_of_not_mem {d : Deps} {q : Str}
    (h : q ∉ depKeys d) : lookupDep d q = none := by
  induction d with
  | nil => rfl
  | cons e rest ih =>
    rcases e with ⟨k, v⟩
    rw [lookupDep]
    have hk : ¬ k = q := by
      intro hkq
      exact h (by rw [← hkq]; exact List.mem_cons_self k (depKeys rest))
    rw [if_neg hk]
    exact ih (fun hm => h (List.mem_cons_of_mem k hm))

theorem depKeys_setDep (d : Deps) (k v : Str) :
    depKeys (setDep d k v) = if k ∈ depKeys d then depKeys d else depKeys d ++ [k] := by
  induction d with
  | nil => simp [setDep, depKeys]
  | cons e rest ih =>
    rcases e with ⟨k', v'⟩
    by_cases hk : k' = k
    · subst hk
      simp [setDep, depKeys]
    · have hk₂ : ¬ k = k' := fun h => hk h.symm
      rw [setDep, if_neg hk]
      simp only [depKeys, List.map_cons] at ih ⊢
      rw [ih]
      by_cases hmem : k ∈ rest.map Prod.fst
      · rw [if_pos hmem, if_pos (List.mem_cons_of_mem k' hmem)]
      · rw [if_neg hmem,
          if_neg (fun hm => (List.mem_cons.mp hm).elim hk₂ hmem)]
        rfl

theorem nodup_depKeys_setDep {d : Deps} (k v : Str)
    (h : (depKeys d).Nodup) : (depKeys (setDep d k v)).Nodup := by
  rw [depKeys_setDep]
  by_cases hmem : k ∈ depKeys d
  · rw [if_pos hmem]
    exact h
  · rw [if_neg hmem]
    rw [List.nodup_append]
    exact ⟨h, List.nodup_singleton k, by simpa using hmem⟩

theorem nodup_depKeys_depAssign {a : Deps} (b : Deps)
    (h : (depKeys a).Nodup) : (depKeys (depAssign a b)).Nodup := by
  induction b generalizing a with
  | nil => exact h
  | cons e b' ih =>
    rw [depAssign, List.foldl_cons]
    exact ih (nodup_depKeys_setDep e.1 e.2 h)

theorem nodup_depKeys_collectBy (g : Feature → Deps) (feats : List Feature) :
    (depKeys (collectBy g feats)).Nodup := by
  unfold collectBy
  suffices hgen : ∀ acc : Deps, (depKeys acc).Nodup →
      (depKeys (feats.foldl (fun acc f => depAssign acc (g f)) acc)).Nodup by
    exact hgen [] (by simp [depKeys])
  induction feats with
  | nil => intro acc h; exact h
  | cons f feats' ih =>
    intro acc h
    rw [List.foldl_cons]
    exact ih _ (nodup_depKeys_depAssign (g f) h)

theorem lookupDep_depAssign {b : Deps} (a : Deps) (q : Str)
    (hb : (depKeys b).Nodup) :
    lookupDep (depAssign a b) q = (lookupDep b q).or (lookupDep a q) := by
  induction b generalizing a with
  | nil => rw [depAssign, List.foldl_nil, lookupDep, Option.none_or]
  | cons e b' ih =>
    rcases e with ⟨k, v⟩
    rw [depAssign, List.foldl_cons]
    have hb' : (depKeys b').Nodup := (List.nodup_cons.mp hb).2
    have hknotin : k ∉ depKeys b' := by
      have := (List.nodup_cons.mp hb).1
      simpa [depKeys] using this
    rw [show List.foldl (fun acc kv => setDep acc kv.1 kv.2) (setDep a k v) b' =
      depAssign (setDep a k v) b' from rfl]
    rw [ih _ hb', lookupDep, lookupDep_setDep]
    by_cases hq : q = k
    · rw [if_pos hq, if_pos (by rw [hq])]
      rw [lookupDep_eq_none_of_not_mem (by rw [hq]; exact hknotin), Option.none_or]
      cases lookupDep a q <;> rfl
    · rw [if_neg hq, if_neg (fun h => hq h.symm)]

/-- Value at key `k` after processing features in order, later features
taking precedence (the extensional content of the `Object.assign`
accumulation). -/
def pickLast (g : Feature → Deps) (k : Str) : List Feature → Option Str
  | [] => none
  | f :: l => (pickLast g k l).or (lookupDep (g f) k)

theorem lookupDep_collectBy (g : Feature → Deps) (k : Str) (feats : List Feature)
    (hnd : ∀ f ∈ feats, (depKeys (g f)).Nodup) :
    lookupDep (collectBy g feats) k = pickLast g k feats := by
  unfold collectBy
  suffices hgen : ∀ acc : Deps,
      lookupDep (feats.foldl (fun acc f => depAssign acc (g f)) acc) k =
      (pickLast g k feats).or (lookupDep acc k) by
    rw [hgen [], show lookupDep [] k = none from rfl]
    cases pickLast g k feats <;> rfl
  induction feats with
  | nil =>
    intro acc
    rw [List.foldl_nil, pickLast, Option.none_or]
  | cons f feats' ih =>
    intro acc
    rw [List.foldl_cons, pickLast]
    rw [ih (fun f' hf' => hnd f' (List.mem_cons_of_mem f hf'))]
    rw [lookupDep_depAssign acc k (hnd f (List.mem_cons_self f feats'))]
    rw [Option.or_assoc]

theorem pickLast_eq_none_iff (g : Feature → Deps) (k : Str) (l : List Feature) :
    pickLast g k l = none ↔ ∀ f ∈ l, lookupDep (g f) k = none := by
  induction l with
  | nil => simp [pickLast]
  | cons f l' ih =>
    rw [pickLast]
    constructor
    · intro h
      rcases hpl : pickLast g k l' with _ | v <;> rw [hpl] at h
      · rcases hlf : lookupDep (g f) k with _ | v <;> rw [hlf] at h
        · intro f' hf'
          rcases List.mem_cons.mp hf' with hcase | hcase
          · rw [hcase]; exact hlf
          · exact (ih.mp hpl) f' hcase
        · cases h
      · cases h
    · intro h
      rw [ih.mpr (fun f' hf' => h f' (List.mem_cons_of_mem f hf')),
        h f (List.mem_cons_self f l')]
      rfl

theorem pickLast_eq_some (g : Feature → Deps) (k : Str) {l : List Feature} {v : Str}
    (h : pickLast g k l = some v) : ∃ f ∈ l, lookupDep (g f) k = some v := by
  induction l with
  | nil => cases h
  | cons f l' ih =>
    rw [pickLast] at h
    rcases hpl : pickLast g k l' with _ | w <;> rw [hpl] at h
    · exact ⟨f, List.mem_cons_self f l', h⟩
    · injection h with hv
      rcases ih (hv ▸ hpl) with ⟨f', hf', hl'⟩
      exact ⟨f', List.mem_cons_of_mem f hf', hl'⟩

/-- Features agree wherever their maps for section `g` both define a key. -/
def CompatAt (g : Feature → Deps) (k : Str) (l : List Feature) : Prop :=
  ∀ f₁ ∈ l, ∀ f₂ ∈ l, ∀ v₁ v₂,
    lookupDep (g f₁) k = some v₁ → lookupDep (g f₂) k = some v₂ → v₁ = v₂

theorem pickLast_perm_invariant (g : Feature → Deps) (k : Str)
    {l₁ l₂ : List Feature} (hperm : l₁.Perm l₂) (hcompat : CompatAt g k l₁) :
    pickLast g k l₁ = pickLast g k l₂ := by
  rcases h₁ : pickLast g k l₁ with _ | v₁ <;> rcases h₂ : pickLast g k l₂ with _ | v₂
  · rfl
  · rcases pickLast_eq_some g k h₂ with ⟨f, hf, hlf⟩
    have hf₁ : f ∈ l₁ := hperm.symm.subset hf
    rw [(pickLast_eq_none_iff g k l₁).mp h₁ f hf₁] at hlf
    cases hlf
  · rcases pickLast_eq_some g k h₁ with ⟨f, hf, hlf⟩
    have hf₂ : f ∈ l₂ := hperm.subset hf
    rw [(pickLast_eq_none_iff g k l₂).mp h₂ f hf₂] at hlf
    cases hlf
  · rcases pickLast_eq_some g k h₁ with ⟨f₁, hf₁, hl₁⟩
    rcases pickLast_eq_some g k h₂ with ⟨f₂, hf₂, hl₂⟩
    rw [hcompat f₁ hf₁ f₂ (hperm.symm.subset hf₂) v₁ v₂ hl₁ hl₂]

theorem setDep_ne_nil (d : Deps) (k v : Str) : setDep d k v ≠ [] := by
  cases d with
  | nil => simp [setDep]
  | cons e rest =>
    rcases e with ⟨k', v'⟩
    rw [setDep]
    by_cases hk : k' = k
    · rw [if_pos hk]
      simp
    · rw [if_neg hk]
      simp

theorem depAssign_eq_nil_iff (a b : Deps) :
    depAssign a b = [] ↔ a = [] ∧ b = [] := by
  induction b generalizing a with
  | nil =>
    rw [depAssign, List.foldl_nil]
    simp
  | cons e b' ih =>
    rw [depAssign, List.foldl_cons]
    rw [show List.foldl (fun acc kv => setDep acc kv.1 kv.2) (setDep a e.1 e.2) b' =
      depAssign (setDep a e.1 e.2) b' from rfl]
    rw [ih]
    constructor
    · intro ⟨h₁, _⟩
      exact absurd h₁ (setDep_ne_nil a e.1 e.2)
    · intro ⟨_, h₂⟩
      cases h₂

theorem collectBy_eq_nil_iff (g : Feature → Deps) (feats : List Feature) :
    collectBy g feats = [] ↔ ∀ f ∈ feats, g f = [] := by
  unfold collectBy
  suffices hgen : ∀ acc : Deps,
      feats.foldl (fun acc f => depAssign acc (g f)) acc = [] ↔
      (acc = [] ∧ ∀ f ∈ feats, g f = []) by
    rw [hgen []]
    simp
  induction feats with
  | nil =>
    intro acc
    simp
  | cons f feats' ih =>
    intro acc
    rw [List.foldl_cons, ih]
    rw [depAssign_eq_nil_iff]
    constructor
    · intro ⟨⟨ha, hgf⟩, hrest⟩
      exact ⟨ha, fun f' hf' => (List.mem_cons.mp hf').elim (fun h => h ▸ hgf) (hrest f')⟩
    · intro ⟨ha, hall⟩
      exact ⟨⟨ha, hall f (List.mem_cons_self f feats')⟩,
        fun f' hf' => hall f' (List.mem_cons_of_mem f hf')⟩

/-! ### Small filesystem and injection helper lemmas -/

theorem lookupFS_setFS_self (fs : FS) (p c : Str) :
    lookupFS (setFS fs p c) p = some c := by
  induction fs with
  | nil => simp [setFS, lookupFS]
  | cons e rest ih =>
    rcases e with ⟨p', c'⟩
    rw [setFS]
    by_cases hp : p' = p
    · rw [if_pos hp, lookupFS, if_pos hp]
    · rw [if_neg hp, lookupFS, if_neg hp, ih]

theorem lookupFS_cleanupMarkers (fs : FS) (applied : List Str) (p : Str) :
    lookupFS (cleanupMarkers fs applied) p =
    (lookupFS fs p).map (cleanupFile applied p) := by
  induction fs with
  | nil => rfl
  | cons e rest ih =>
    rcases e with ⟨p', c'⟩
    rw [cleanupMarkers, List.map_cons, lookupFS, lookupFS]
    by_cases hp : p' = p
    · subst hp
      rw [if_pos rfl, if_pos rfl]
      rfl
    · rw [if_neg hp, if_neg hp, ← ih]
      rfl

theorem stripMarkerLines_of_not_contains {m content : Str}
    (habs : containsStr content m = false) :
    stripMarkerLines m content = content := by
  unfold stripMarkerLines
  have hnomark : ∀ l ∈ splitOnChar '\n' content, isMarkerLine m l = false := by
    intro l hl
    by_cases hcase : isMarkerLine m l = true
    · exfalso
      rcases markerLine_decomp hcase with ⟨w, w', hldec, _, _⟩
      have hdecomp : ∃ a b, content = a ++ l ++ b := by
        rcases hsplit : splitOnChar '\n' content with _ | ⟨h₀, t₀⟩
        · exact absurd hsplit (splitOnChar_ne_nil '\n' content)
        · rw [hsplit] at hl
          rcases List.mem_cons.mp hl with hcase₂ | hcase₂
          · subst hcase₂
            rcases splitOnChar_head_decomp hsplit with ⟨b, hb, _⟩
            exact ⟨[], b, by rw [List.nil_append, hb]⟩
          · rcases splitOnChar_tail_decomp hsplit hcase₂ with ⟨a, b, hab, _⟩
            exact ⟨a, b, hab⟩
      rcases hdecomp with ⟨a, b, hab⟩
      have : containsStr content m = true := by
        rw [hab, hldec,
          show a ++ (w ++ m ++ w') ++ b = (a ++ w) ++ m ++ (w' ++ b) by simp]
        exact containsStr_of_parts (a ++ w) m (w' ++ b)
      rw [this] at habs
      cases habs
    · exact Bool.not_eq_true _ |>.mp hcase
  have hmap : (splitOnChar '\n' content).map
      (fun l => if isMarkerLine m l then [] else l) =
      (splitOnChar '\n' content).map id :=
    List.map_congr_left (fun l hl => by
      rw [hnomark l hl]
      exact if_neg Bool.false_ne_true)
  rw [hmap, List.map_id, join_splitOnChar]

/-- Generic text path, marker present: the first occurrence of the marker
is replaced by the code, a newline, two spaces of indentation and the
marker itself, and the write is reported as applied. -/
theorem injectCode_found {fs : FS} {p marker code content pre post : Str}
    (hlook : lookupFS fs p = some content)
    (hpkg : (endsWithStr p pkgSuffix && containsStr marker wsToken) = false)
    (hsplit : splitFirst marker content = some (pre, post)) :
    injectCode fs p marker code =
      .ok (setFS fs p (pre ++ code ++ '\n' :: ' ' :: ' ' :: (marker ++ post)), true) := by
  unfold injectCode
  rw [hlook]
  dsimp only
  rw [if_neg (by rw [hpkg]; exact Bool.false_ne_true)]
  unfold injectText
  rw [hsplit]

/-- Generic text path, marker absent: no write, not applied. -/
theorem injectCode_not_found {fs : FS} {p marker code content : Str}
    (hlook : lookupFS fs p = some content)
    (hpkg : (endsWithStr p pkgSuffix && containsStr marker wsToken) = false)
    (habs : containsStr content marker = false) :
    injectCode fs p marker code = .ok (fs, false) := by
  unfold injectCode
  rw [hlook]
  dsimp only
  rw [if_neg (by rw [hpkg]; exact Bool.false_ne_true)]
  unfold injectText
  have : splitFirst marker content = none := by
    unfold containsStr at habs
    rcases h : splitFirst marker content with _ | v
    · rfl
    · rw [h] at habs
      cases habs
  rw [this]

/-- Manifest path, parse success: the code fragment's key/value pairs are
merged into the `scripts` section and the manifest is rewritten
pretty-printed. -/
theorem injectCode_manifest_merge {fs : FS} {p m c content : Str}
    {pkgFields fragFields : List (Str × Json)}
    (hlook : lookupFS fs p = some content)
    (hcond : (endsWithStr p pkgSuffix && containsStr m wsToken) = true)
    (hpkg : parseJson (stripMarkerLines m content) = some (Json.obj pkgFields))
    (hfrag : parseJson ('{' :: (c ++ ['}'])) = some (Json.obj fragFields)) :
    injectCode fs p m c =
      .ok (setFS fs p (stringify (Json.obj (mergeScripts pkgFields fragFields)) ++ ['\n']),
        true) := by
  unfold injectCode
  rw [hlook]
  dsimp only
  rw [if_pos hcond, hpkg]
  dsimp only
  rw [hfrag]

/-- Manifest path, invalid fragment: the structured error carrying the
offending code is raised (and, through the absence of an `ENOENT` code,
rethrown out of `injectCode`). -/
theorem injectCode_manifest_bad_fragment {fs : FS} {p m c content : Str} {pkg : Json}
    (hlook : lookupFS fs p = some content)
    (hcond : (endsWithStr p pkgSuffix && containsStr m wsToken) = true)
    (hpkg : parseJson (stripMarkerLines m content) = some pkg)
    (hfrag : parseJson ('{' :: (c ++ ['}'])) = none) :
    injectCode fs p m c = .error (.scriptFragmentInvalid c) := by
  unfold injectCode
  rw [hlook]
  dsimp only
  rw [if_pos hcond, hpkg]
  dsimp only
  rw [hfrag]

/-! ## Claim theorems -/

/-- C1 (counterexample to the claim as stated): the generic injection does
not replace the marker with `code ++ "\n" ++ marker`; two spaces of
indentation are inserted before the re-created marker, so the resulting
file differs from the claimed one. -/
theorem claim1_counterexample :
    injectCode [("a.ts".data, "x\n// INJECT:A\ny".data)] "a.ts".data
      "// INJECT:A".data "code();".data =
      .ok ([("a.ts".data, "x\ncode();\n  // INJECT:A\ny".data)], true) ∧
    "x\ncode();\n  // INJECT:A\ny".data ≠ "x\ncode();\n// INJECT:A\ny".data :=
  ⟨rfl, by decide⟩

/-- C1 (amended): on the generic text path, `injectCode` replaces exactly
the first occurrence of the marker with the code fragment, a newline, two
spaces of indentation and the original marker string re-inserted, writes
the result back and returns applied; consequently a second feature
targeting the same marker stacks its code below the first and above the
marker, in selection order. -/
theorem claim1_inject_append_before_marker :
    (∀ (fs : FS) (p marker code content pre post : Str),
      lookupFS fs p = some content →
      (endsWithStr p pkgSuffix && containsStr marker wsToken) = false →
      splitFirst marker content = some (pre, post) →
      injectCode fs p marker code =
        .ok (setFS fs p (pre ++ code ++ '\n' :: ' ' :: ' ' :: (marker ++ post)), true)) ∧
    (∀ (fs : FS) (p marker c₁ c₂ content pre post : Str),
      lookupFS fs p = some content →
      (endsWithStr p pkgSuffix && containsStr marker wsToken) = false →
      splitFirst marker content = some (pre, post) →
      splitFirst marker (pre ++ c₁ ++ '\n' :: ' ' :: ' ' :: marker) =
        some (pre ++ c₁ ++ ['\n', ' ', ' '], []) →
      (injectCode fs p marker c₁).bind (fun r => injectCode r.1 p marker c₂) =
        .ok (setFS (setFS fs p (pre ++ c₁ ++ '\n' :: ' ' :: ' ' :: (marker ++ post))) p
          (pre ++ c₁ ++ '\n' :: ' ' :: ' ' ::
            (c₂ ++ '\n' :: ' ' :: ' ' :: (marker ++ post))), true)) := by
  constructor
  · intro fs p marker code content pre post hlook hpkg hsplit
    exact injectCode_found hlook hpkg hsplit
  · intro fs p marker c₁ c₂ content pre post hlook hpkg hsplit hfirst
    rw [injectCode_found hlook hpkg hsplit]
    rw [show Except.bind (α := FS × Bool) (ε := InjectError)
      (.ok (setFS fs p (pre ++ c₁ ++ '\n' :: ' ' :: ' ' :: (marker ++ post)), true))
      (fun r => injectCode r.1 p marker c₂) =
      injectCode (setFS fs p (pre ++ c₁ ++ '\n' :: ' ' :: ' ' :: (marker ++ post)))
        p marker c₂ from rfl]
    have hlook₂ : lookupFS (setFS fs p (pre ++ c₁ ++ '\n' :: ' ' :: ' ' :: (marker ++ post))) p =
        some (pre ++ c₁ ++ '\n' :: ' ' :: ' ' :: (marker ++ post)) :=
      lookupFS_setFS_self fs p _
    have hsplit₂ : splitFirst marker (pre ++ c₁ ++ '\n' :: ' ' :: ' ' :: (marker ++ post)) =
        some (pre ++ c₁ ++ ['\n', ' ', ' '], post) := by
      have := splitFirst_append_end post hfirst
      rw [show (pre ++ c₁ ++ '\n' :: ' ' :: ' ' :: marker) ++ post =
        pre ++ c₁ ++ '\n' :: ' ' :: ' ' :: (marker ++ post) by simp] at this
      exact this
    rw [injectCode_found hlook₂ hpkg hsplit₂]
    rw [show (pre ++ c₁ ++ ['\n', ' ', ' ']) ++ c₂ ++ '\n' :: ' ' :: ' ' :: (marker ++ post) =
      pre ++ c₁ ++ '\n' :: ' ' :: ' ' :: (c₂ ++ '\n' :: ' ' :: ' ' :: (marker ++ post))
      by simp]

/-- C2: after a run whose successful injections produced the applied-marker
set, cleanup leaves every standalone line of a grammar-conformant marker
that is not in that set intact in every file (on the `package.json` path
such a line forces the JSON re-parse to fail, so the textual fallback is
written). -/
theorem claim2_cleanup_only_applied_markers :
    ∀ (targetDir : Str) (fs : FS) (injs : List (Str × Str × Str)) (fs₁ : FS)
      (applied : List Str) (M p c l : Str),
      applyInjections targetDir fs [] injs = .ok (fs₁, applied) →
      markerGrammarOk M = true → M ∉ applied →
      lookupFS fs₁ p = some c → l ∈ splitOnChar '\n' c → isMarkerLine M l = true →
      lookupFS (cleanupMarkers fs₁ applied) p = some (cleanupFile applied p c) ∧
      l ∈ splitOnChar '\n' (cleanupFile applied p c) := by
  intro targetDir fs injs fs₁ applied M p c l _ hg hM hlook hl hml
  constructor
  · rw [lookupFS_cleanupMarkers, hlook]
    rfl
  · exact cleanupFile_preserves_unapplied_line hg hM hl hml

/-- C3: the worked scripts-injection example: stripping the marker line,
parsing the manifest, merging `"build": "y"` into `scripts` and rewriting
produces a manifest that parses to
`{"scripts": {"dev": "x", "build": "y"}}` with no marker line, and the
injection reports applied. -/
theorem claim3_script_injection_example :
    injectCode
      [("api/package.json".data,
        "\x7b\n  \"scripts\": \x7b\n    \"dev\": \"x\"\n  \x7d\n  // INJECT:WORKERS_SCRIPTS\n\x7d".data)]
      "api/package.json".data "// INJECT:WORKERS_SCRIPTS".data "\"build\": \"y\"".data =
      .ok ([("api/package.json".data,
        "\x7b\n  \"scripts\": \x7b\n    \"dev\": \"x\",\n    \"build\": \"y\"\n  \x7d\n\x7d\n".data)],
        true) ∧
    parseJson "\x7b\n  \"scripts\": \x7b\n    \"dev\": \"x\",\n    \"build\": \"y\"\n  \x7d\n\x7d\n".data =
      some (Json.obj [("scripts".data,
        Json.obj [("dev".data, Json.str "x".data), ("build".data, Json.str "y".data)])]) ∧
    hasMarkerLine "// INJECT:WORKERS_SCRIPTS".data
      "\x7b\n  \"scripts\": \x7b\n    \"dev\": \"x\",\n    \"build\": \"y\"\n  \x7d\n\x7d\n".data = false :=
  ⟨rfl, rfl, by decide⟩

/-- C4 (counterexample to the claim as stated): a `package.json` target of
a scripts-style injection is rewritten and reported applied even though
its content does not contain the marker, so "absent marker implies not
applied and byte-identical" fails on that path. -/
theorem claim4_counterexample :
    containsStr "\x7b\x7d".data "// INJECT:WORKERS_SCRIPTS".data = false ∧
    injectCode [("srv/package.json".data, "\x7b\x7d".data)] "srv/package.json".data
      "// INJECT:WORKERS_SCRIPTS".data "\"a\": \"1\"".data =
      .ok ([("srv/package.json".data,
        "\x7b\n  \"scripts\": \x7b\n    \"a\": \"1\"\n  \x7d\n\x7d\n".data)], true) ∧
    "\x7b\n  \"scripts\": \x7b\n    \"a\": \"1\"\n  \x7d\n\x7d\n".data ≠ "\x7b\x7d".data :=
  ⟨by decide, rfl, by decide⟩

/-- C4 (amended): for every existing file that is not a scripts-style
manifest target (path ending in `package.json` with a `WORKERS_SCRIPTS`
marker), a marker absent from the content makes `injectCode` a no-op:
applied is false, the filesystem is returned unchanged, and no error is
raised. -/
theorem claim4_absent_marker_not_applied :
    ∀ (fs : FS) (p marker code content : Str),
      lookupFS fs p = some content →
      (endsWithStr p pkgSuffix && containsStr marker wsToken) = false →
      containsStr content marker = false →
      injectCode fs p marker code = .ok (fs, false) := by
  intro fs p marker code content hlook hpkg habs
  exact injectCode_not_found hlook hpkg habs

/-- C5: injecting into a path with no file creates it (directories are
implicit in the filesystem model) with exactly the marker line followed by
the code line, and reports applied. -/
theorem claim5_inject_missing_file :
    ∀ (fs : FS) (p marker code : Str), lookupFS fs p = none →
      injectCode fs p marker code =
        .ok (setFS fs p (marker ++ '\n' :: (code ++ ['\n'])), true) ∧
      lookupFS (setFS fs p (marker ++ '\n' :: (code ++ ['\n']))) p =
        some (marker ++ '\n' :: (code ++ ['\n'])) := by
  intro fs p marker code hlook
  constructor
  · unfold injectCode
    rw [hlook]
  · exact lookupFS_setFS_self fs p _

/-- C6 (counterexample to the claim as stated): two features declaring the
same dependency name with different versions yield different merged
dependency maps under the two orders of the same feature set. -/
theorem claim6_counterexample :
    ([Feature.mk [("x".data, "1".data)] [] [],
      Feature.mk [("x".data, "2".data)] [] []].Perm
     [Feature.mk [("x".data, "2".data)] [] [],
      Feature.mk [("x".data, "1".data)] [] []]) ∧
    lookupDep (mergePackageJson [] []
      (collectDeps [Feature.mk [("x".data, "1".data)] [] [],
        Feature.mk [("x".data, "2".data)] [] []])
      (collectDevDeps [Feature.mk [("x".data, "1".data)] [] [],
        Feature.mk [("x".data, "2".data)] [] []])).1 "x".data = some "2".data ∧
    lookupDep (mergePackageJson [] []
      (collectDeps [Feature.mk [("x".data, "2".data)] [] [],
        Feature.mk [("x".data, "1".data)] [] []])
      (collectDevDeps [Feature.mk [("x".data, "2".data)] [] [],
        Feature.mk [("x".data, "1".data)] [] []])).1 "x".data = some "1".data :=
  ⟨List.Perm.swap (Feature.mk [("x".data, "2".data)] [] [])
    (Feature.mk [("x".data, "1".data)] [] []) [], by decide, by decide⟩

/-- C6 (amended): when the selected features' dependency maps are
compatible (they agree on every shared key, and each map has distinct
keys), the dependency and devDependency sections obtained by collecting
the selection in order and merging into the manifest are the same
key-to-version mapping for any two orders of the same feature set. -/
theorem claim6_dependency_merge_perm :
    ∀ (pkgDeps pkgDevDeps : Deps) (l₁ l₂ : List Feature), l₁.Perm l₂ →
    (∀ f ∈ l₁, (depKeys f.dependencies).Nodup) →
    (∀ f ∈ l₁, (depKeys f.devDependencies).Nodup) →
    (∀ k, CompatAt Feature.dependencies k l₁) →
    (∀ k, CompatAt Feature.devDependencies k l₁) →
    (∀ k, lookupDep (mergePackageJson pkgDeps pkgDevDeps
        (collectDeps l₁) (collectDevDeps l₁)).1 k =
      lookupDep (mergePackageJson pkgDeps pkgDevDeps
        (collectDeps l₂) (collectDevDeps l₂)).1 k) ∧
    (∀ k, lookupDep (mergePackageJson pkgDeps pkgDevDeps
        (collectDeps l₁) (collectDevDeps l₁)).2 k =
      lookupDep (mergePackageJson pkgDeps pkgDevDeps
        (collectDeps l₂) (collectDevDeps l₂)).2 k) := by
  intro pkgDeps pkgDevDeps l₁ l₂ hperm hnd hnddev hcompat hcompatdev
  have hnd₂ : ∀ f ∈ l₂, (depKeys f.dependencies).Nodup :=
    fun f hf => hnd f (hperm.symm.subset hf)
  have hnddev₂ : ∀ f ∈ l₂, (depKeys f.devDependencies).Nodup :=
    fun f hf => hnddev f (hperm.symm.subset hf)
  have hdeps : ∀ k, lookupDep (collectBy Feature.dependencies l₁) k =
      lookupDep (collectBy Feature.dependencies l₂) k := by
    intro k
    rw [lookupDep_collectBy Feature.dependencies k l₁ hnd,
      lookupDep_collectBy Feature.dependencies k l₂ hnd₂]
    exact pickLast_perm_invariant Feature.dependencies k hperm (hcompat k)
  have hdevdeps : ∀ k, lookupDep (collectBy Feature.devDependencies l₁) k =
      lookupDep (collectBy Feature.devDependencies l₂) k := by
    intro k
    rw [lookupDep_collectBy Feature.devDependencies k l₁ hnddev,
      lookupDep_collectBy Feature.devDependencies k l₂ hnddev₂]
    exact pickLast_perm_invariant Feature.devDependencies k hperm (hcompatdev k)
  constructor
  · intro k
    show lookupDep (depAssign pkgDeps (collectBy Feature.dependencies l₁)) k =
      lookupDep (depAssign pkgDeps (collectBy Feature.dependencies l₂)) k
    rw [lookupDep_depAssign pkgDeps k (nodup_depKeys_collectBy Feature.dependencies l₁),
      lookupDep_depAssign pkgDeps k (nodup_depKeys_collectBy Feature.dependencies l₂),
      hdeps k]
  · intro k
    show lookupDep (if (collectBy Feature.devDependencies l₁).isEmpty then pkgDevDeps
        else depAssign pkgDevDeps (collectBy Feature.devDependencies l₁)) k =
      lookupDep (if (collectBy Feature.devDependencies l₂).isEmpty then pkgDevDeps
        else depAssign pkgDevDeps (collectBy Feature.devDependencies l₂)) k
    have hempty : (collectBy Feature.devDependencies l₁).isEmpty =
        (collectBy Feature.devDependencies l₂).isEmpty := by
      rw [Bool.eq_iff_iff, List.isEmpty_iff, List.isEmpty_iff]
      rw [collectBy_eq_nil_iff, collectBy_eq_nil_iff]
      constructor
      · intro h f hf
        exact h f (hperm.symm.subset hf)
      · intro h f hf
        exact h f (hperm.subset hf)
    by_cases he : (collectBy Feature.devDependencies l₁).isEmpty = true
    · rw [if_pos he, if_pos (by rw [← hempty]; exact he)]
    · rw [if_neg he, if_neg (by rw [← hempty]; exact he)]
      rw [lookupDep_depAssign pkgDevDeps k (nodup_depKeys_collectBy Feature.devDependencies l₁),
        lookupDep_depAssign pkgDevDeps k (nodup_depKeys_collectBy Feature.devDependencies l₂),
        hdevdeps k]

/-- C7: any file whose path ends in `.env.example` is returned byte-for-byte
unchanged by the cleanup pass, whatever markers were applied; the second
part shows the same marker being removed from another file of the tree in
the same pass. -/
theorem claim7_env_example_reserved :
    (∀ (fs : FS) (applied : List Str) (p c : Str),
      endsWithStr p ".env.example".data = true →
      lookupFS fs p = some c →
      lookupFS (cleanupMarkers fs applied) p = some c) ∧
    cleanupFile ["# INJECT:ENV_VARS".data] "config.env".data
      "A=1\n# INJECT:ENV_VARS\nB=2".data = "A=1\n\nB=2".data := by
  constructor
  · intro fs applied p c henv hlook
    rw [lookupFS_cleanupMarkers, hlook]
    have hfile : cleanupFile applied p c = c := by
      unfold cleanupFile
      rw [if_neg (by rw [henv]; simp)]
    rw [Option.map_some', hfile]
  · rfl

/-- C8: a scripts-style manifest injection whose code string is not valid
as the interior of a JSON object literal makes `injectCode` raise the
structured error naming the offending code, and the injection loop of the
run propagates that error instead of continuing. -/
theorem claim8_invalid_fragment_fatal :
    (∀ (fs : FS) (p m c content : Str) (pkg : Json),
      lookupFS fs p = some content →
      endsWithStr p pkgSuffix = true → containsStr m wsToken = true →
      parseJson (stripMarkerLines m content) = some pkg →
      parseJson ('{' :: (c ++ ['}'])) = none →
      injectCode fs p m c = .error (.scriptFragmentInvalid c)) ∧
    (∀ (targetDir : Str) (fs : FS) (applied : List Str) (file m c : Str)
      (rest : List (Str × Str × Str)) (content : Str) (pkg : Json),
      lookupFS fs (pathJoin targetDir file) = some content →
      endsWithStr (pathJoin targetDir file) pkgSuffix = true →
      containsStr m wsToken = true →
      parseJson (stripMarkerLines m content) = some pkg →
      parseJson ('{' :: (c ++ ['}'])) = none →
      applyInjections targetDir fs applied ((file, m, c) :: rest) =
        .error (.scriptFragmentInvalid c)) := by
  constructor
  · intro fs p m c content pkg hlook hends hws hpkg hfrag
    exact injectCode_manifest_bad_fragment hlook (by rw [hends, hws]; rfl) hpkg hfrag
  · intro targetDir fs applied file m c rest content pkg hlook hends hws hpkg hfrag
    rw [applyInjections]
    rw [injectCode_manifest_bad_fragment hlook (by rw [hends, hws]; rfl) hpkg hfrag]

/-- C9: a requested fresh project directory that exists and is non-empty is
rejected with the fatal error before the base template is copied (the
driver produces no filesystem), while the `.` current-directory sentinel
passes name validation. -/
theorem claim9_nonempty_target_rejected :
    (∀ (template fs : FS) (targetDir : Str) (e : Str) (es : List Str),
      scaffoldPrepareTarget template fs targetDir (.dir (e :: es)) =
        .error .targetNotEmpty) ∧
    validateProjectName ".".data = true := by
  constructor
  · intro template fs targetDir e es
    unfold scaffoldPrepareTarget
    dsimp only
    rw [if_pos (by simp)]
  · decide

/-- C10: a scripts-style manifest injection applies (merging the fragment
into `scripts` and rewriting the manifest) and returns applied even when
the marker is entirely absent from the manifest, whereas the generic text
path returns not-applied for an absent marker. -/
theorem claim10_manifest_inject_without_marker :
    (∀ (fs : FS) (p m c content : Str) (pkgFields fragFields : List (Str × Json)),
      lookupFS fs p = some content →
      endsWithStr p pkgSuffix = true → containsStr m wsToken = true →
      containsStr content m = false →
      parseJson content = some (Json.obj pkgFields) →
      parseJson ('{' :: (c ++ ['}'])) = some (Json.obj fragFields) →
      injectCode fs p m c =
        .ok (setFS fs p
          (stringify (Json.obj (mergeScripts pkgFields fragFields)) ++ ['\n']), true)) ∧
    (∀ (fs : FS) (p m c content : Str),
      lookupFS fs p = some content →
      (endsWithStr p pkgSuffix && containsStr m wsToken) = false →
      containsStr content m = false →
      injectCode fs p m c = .ok (fs, false)) := by
  constructor
  · intro fs p m c content pkgFields fragFields hlook hends hws habs hpkg hfrag
    have hstrip : stripMarkerLines m content = content :=
      stripMarkerLines_of_not_contains habs
    exact injectCode_manifest_merge hlook (by rw [hends, hws]; rfl)
      (by rw [hstrip]; exact hpkg) hfrag
  · intro fs p m c content hlook hpkg habs
    exact injectCode_not_found hlook hpkg habs

/-! ## Witnesses -/

/-- Witness for C1's amended theorem at a concrete file and marker. -/
theorem claim1_witness :
    injectCode [("a.ts".data, "x\n// INJECT:A\ny".data)] "a.ts".data
      "// INJECT:A".data "code();".data =
      .ok ([("a.ts".data, "x\ncode();\n  // INJECT:A\ny".data)], true) ∧
    (injectCode [("a.ts".data, "x\n// INJECT:A\ny".data)] "a.ts".data
        "// INJECT:A".data "a();".data).bind
      (fun r => injectCode r.1 "a.ts".data "// INJECT:A".data "b();".data) =
      .ok ([("a.ts".data, "x\na();\n  b();\n  // INJECT:A\ny".data)], true) :=
  ⟨claim1_inject_append_before_marker.1 _ _ _ _ "x\n// INJECT:A\ny".data
      "x\n".data "\ny".data rfl (by decide) (by decide),
    claim1_inject_append_before_marker.2 _ _ _ _ _ "x\n// INJECT:A\ny".data
      "x\n".data "\ny".data rfl (by decide) (by decide) (by decide)⟩

/-- Witness for C2 at a run with no injections and an unapplied marker. -/
theorem claim2_witness :
    lookupFS (cleanupMarkers [("a.ts".data, "// INJECT:FOO\nx".data)] [])
      "a.ts".data = some (cleanupFile [] "a.ts".data "// INJECT:FOO\nx".data) ∧
    "// INJECT:FOO".data ∈
      splitOnChar '\n' (cleanupFile [] "a.ts".data "// INJECT:FOO\nx".data) :=
  claim2_cleanup_only_applied_markers "t".data
    [("a.ts".data, "// INJECT:FOO\nx".data)] [] [("a.ts".data, "// INJECT:FOO\nx".data)]
    [] "// INJECT:FOO".data "a.ts".data "// INJECT:FOO\nx".data "// INJECT:FOO".data
    rfl (by decide) (by decide) rfl (by decide) (by decide)

/-- Witness for C4's amended theorem. -/
theorem claim4_witness :
    injectCode [("a.ts".data, "x".data)] "a.ts".data "// INJECT:A".data "c();".data =
      .ok ([("a.ts".data, "x".data)], false) :=
  claim4_absent_marker_not_applied _ _ _ _ "x".data rfl (by decide) (by decide)

/-- Witness for C5 at a missing env-template file. -/
theorem claim5_witness :
    injectCode [] ".env.example".data "# INJECT:ENV_VARS".data "KEY=1".data =
      .ok ([(".env.example".data, "# INJECT:ENV_VARS\nKEY=1\n".data)], true) ∧
    lookupFS [(".env.example".data, "# INJECT:ENV_VARS\nKEY=1\n".data)]
      ".env.example".data = some "# INJECT:ENV_VARS\nKEY=1\n".data :=
  claim5_inject_missing_file [] ".env.example".data "# INJECT:ENV_VARS".data
    "KEY=1".data rfl

theorem lookupDep_nil (k : Str) : lookupDep ([] : Deps) k = none := rfl

theorem lookupDep_singleton {k' v' k v : Str}
    (h : lookupDep [(k', v')] k = some v) : k' = k ∧ v' = v := by
  by_cases hk : k' = k
  · rw [lookupDep, if_pos hk] at h
    injection h with hv
    exact ⟨hk, hv⟩
  · rw [lookupDep, if_neg hk, lookupDep_nil] at h
    cases h

/-- Witness for C6's amended theorem at two features with disjoint
dependency keys, selected in the two different orders. -/
theorem claim6_witness :
    (∀ k, lookupDep (mergePackageJson [("p".data, "0".data)] []
        (collectDeps [Feature.mk [("a".data, "1".data)] [("c".data, "3".data)] [],
          Feature.mk [("b".data, "2".data)] [] []])
        (collectDevDeps [Feature.mk [("a".data, "1".data)] [("c".data, "3".data)] [],
          Feature.mk [("b".data, "2".data)] [] []])).1 k =
      lookupDep (mergePackageJson [("p".data, "0".data)] []
        (collectDeps [Feature.mk [("b".data, "2".data)] [] [],
          Feature.mk [("a".data, "1".data)] [("c".data, "3".data)] []])
        (collectDevDeps [Feature.mk [("b".data, "2".data)] [] [],
          Feature.mk [("a".data, "1".data)] [("c".data, "3".data)] []])).1 k) ∧
    (∀ k, lookupDep (mergePackageJson [("p".data, "0".data)] []
        (collectDeps [Feature.mk [("a".data, "1".data)] [("c".data, "3".data)] [],
          Feature.mk [("b".data, "2".data)] [] []])
        (collectDevDeps [Feature.mk [("a".data, "1".data)] [("c".data, "3".data)] [],
          Feature.mk [("b".data, "2".data)] [] []])).2 k =
      lookupDep (mergePackageJson [("p".data, "0".data)] []
        (collectDeps [Feature.mk [("b".data, "2".data)] [] [],
          Feature.mk [("a".data, "1".data)] [("c".data, "3".data)] []])
        (collectDevDeps [Feature.mk [("b".data, "2".data)] [] [],
          Feature.mk [("a".data, "1".data)] [("c".data, "3".data)] []])).2 k) := by
  refine claim6_dependency_merge_perm [("p".data, "0".data)] []
    [Feature.mk [("a".data, "1".data)] [("c".data, "3".data)] [],
      Feature.mk [("b".data, "2".data)] [] []]
    [Feature.mk [("b".data, "2".data)] [] [],
      Feature.mk [("a".data, "1".data)] [("c".data, "3".data)] []]
    (List.Perm.swap (Feature.mk [("b".data, "2".data)] [] [])
      (Feature.mk [("a".data, "1".data)] [("c".data, "3".data)] []) [])
    (by decide) (by decide) ?_ ?_
  · intro k f hf g hg v₁ v₂ h₁ h₂
    rcases List.mem_cons.mp hf with rfl | hf₂ <;>
      [skip; rcases List.mem_singleton.mp hf₂ with rfl] <;>
      (rcases List.mem_cons.mp hg with rfl | hg₂ <;>
        [skip; rcases List.mem_singleton.mp hg₂ with rfl])
    · exact Option.some.inj (h₁.symm.trans h₂)
    · rcases lookupDep_singleton h₁ with ⟨hk₁, _⟩
      rcases lookupDep_singleton h₂ with ⟨hk₂, _⟩
      exact absurd (hk₁.trans hk₂.symm) (by decide)
    · rcases lookupDep_singleton h₁ with ⟨hk₁, _⟩
      rcases lookupDep_singleton h₂ with ⟨hk₂, _⟩
      exact absurd (hk₁.trans hk₂.symm) (by decide)
    · exact Option.some.inj (h₁.symm.trans h₂)
  · intro k f hf g hg v₁ v₂ h₁ h₂
    rcases List.mem_cons.mp hf with rfl | hf₂ <;>
      [skip; rcases List.mem_singleton.mp hf₂ with rfl] <;>
      (rcases List.mem_cons.mp hg with rfl | hg₂ <;>
        [skip; rcases List.mem_singleton.mp hg₂ with rfl])
    · exact Option.some.inj (h₁.symm.trans h₂)
    · rw [show (Feature.mk [("b".data, "2".data)] [] []).devDependencies =
        ([] : Deps) from rfl, lookupDep_nil] at h₂
      cases h₂
    · rw [show (Feature.mk [("b".data, "2".data)] [] []).devDependencies =
        ([] : Deps) from rfl, lookupDep_nil] at h₁
      cases h₁
    · exact Option.some.inj (h₁.symm.trans h₂)

/-- Witness for C7 with the marker applied (and removed elsewhere) in the
same pass. -/
theorem claim7_witness :
    lookupFS (cleanupMarkers [(".env.example".data, "# INJECT:ENV_VARS\n".data)]
      ["# INJECT:ENV_VARS".data]) ".env.example".data =
      some "# INJECT:ENV_VARS\n".data :=
  claim7_env_example_reserved.1 [(".env.example".data, "# INJECT:ENV_VARS\n".data)]
    ["# INJECT:ENV_VARS".data] ".env.example".data "# INJECT:ENV_VARS\n".data
    (by decide) rfl

/-- Witness for C8 at a concrete invalid fragment. -/
theorem claim8_witness :
    injectCode [("app/package.json".data, "\x7b\x7d".data)] "app/package.json".data
      "// INJECT:WORKERS_SCRIPTS".data "oops".data =
      .error (.scriptFragmentInvalid "oops".data) ∧
    applyInjections "app".data [("app/package.json".data, "\x7b\x7d".data)] []
      [("package.json".data, "// INJECT:WORKERS_SCRIPTS".data, "oops".data)] =
      .error (.scriptFragmentInvalid "oops".data) :=
  ⟨claim8_invalid_fragment_fatal.1 _ _ _ _ "\x7b\x7d".data (Json.obj []) rfl (by decide)
      (by decide) rfl rfl,
    claim8_invalid_fragment_fatal.2 "app".data _ [] "package.json".data _ _ []
      "\x7b\x7d".data (Json.obj []) rfl (by decide) (by decide) rfl rfl⟩

/-- Witness for C10 at a markerless manifest and at a generic file. -/
theorem claim10_witness :
    injectCode [("srv/package.json".data, "\x7b\x7d".data)] "srv/package.json".data
      "// INJECT:WORKERS_SCRIPTS".data "\"a\": \"1\"".data =
      .ok ([("srv/package.json".data,
        "\x7b\n  \"scripts\": \x7b\n    \"a\": \"1\"\n  \x7d\n\x7d\n".data)], true) ∧
    injectCode [("a.ts".data, "x".data)] "a.ts".data "// INJECT:A".data "c();".data =
      .ok ([("a.ts".data, "x".data)], false) :=
  ⟨claim10_manifest_inject_without_marker.1 _ _ _ _ "\x7b\x7d".data []
      [("a".data, Json.str "1".data)] rfl (by decide) (by decide) (by decide) rfl rfl,
    claim10_manifest_inject_without_marker.2 _ _ _ _ "x".data rfl (by decide) (by decide)⟩
